import Mathlib

set_option autoImplicit false
set_option maxRecDepth 8000

/-!
Verification of the cross-reference engine of `roam_to_git`
(`roam_to_git/formatter.py`), shallowly embedded over `List Char`.

Conventions of the embedding:
* Python `str` values become `Str := List Char`; `lit "…"` injects a Lean
  string literal.
* Python dicts (all used with insertion order) become association lists;
  `defaultdict(list)` appends become `ddAppend` which keeps first-touch
  key order, exactly like CPython's insertion-ordered dicts.
* `re.Match` objects become the `RMatch` structure holding `.string`,
  `.start()`, `.end()` and `.group(1)`.
* The handful of regexes used by the source are deterministic (their
  greedy loops cannot backtrack into a different parse, as argued in the
  doc comment of each matcher), so each is embedded as an explicit
  matcher function `… → Option (end, payload)` driven by generic
  `re.finditer` / `re.sub` scanners.  The scanners carry a fuel argument
  (always instantiated with the text length) purely to make the
  recursion structural; fuel never runs out on the instantiations used.
-/

namespace RoamFmt

/-- Python strings, embedded as lists of characters. -/
abbrev Str := List Char

/-- Inject a Lean string literal into the embedding. -/
def lit (s : String) : Str := s.data

/-- Python's default whitespace set for `str.strip` / `str.rstrip`:
space, tab, newline, carriage return, vertical tab, form feed. -/
def pyIsSpace (c : Char) : Bool :=
  c == ' ' || c == '\t' || c == '\n' || c == '\r' || c == '\x0b' || c == '\x0c'

/-- Python `s.rstrip()` (strip trailing whitespace). -/
def pyRstrip (s : Str) : Str := (s.reverse.dropWhile pyIsSpace).reverse

/-- Python `s.lstrip(" ")` (strip leading spaces only). -/
def lstripSpaces (s : Str) : Str := s.dropWhile (fun c => c == ' ')

/-- Python `s.strip()` (strip whitespace on both ends). -/
def pyStripAll (s : Str) : Str := pyRstrip (s.dropWhile pyIsSpace)

/-- Python `s.strip() == ""`: the line is empty or all-whitespace. -/
def isBlank (s : Str) : Bool := s.all pyIsSpace

/-- The leading-space count `len(line) - len(line.lstrip(" "))`. -/
def indentOf (s : Str) : Nat := s.length - (lstripSpaces s).length

/-- Python slicing `t[a:b]` (with the usual clamping for out-of-range bounds). -/
def slice (t : Str) (a b : Nat) : Str := (t.take b).drop a

/-- Python `s.split(sep)` for a one-character separator. -/
def splitSep (sep : Char) : Str → List Str
  | [] => [[]]
  | c :: rest =>
    if c == sep then [] :: splitSep sep rest
    else
      match splitSep sep rest with
      | [] => [[c]]
      | h :: tl => (c :: h) :: tl

/-- Split a text into its lines (Python `"\n"`-separated pieces). -/
def splitNl (t : Str) : List Str := splitSep '\n' t

/-- Join lines with `"\n"` (Python `"\n".join(lines)`). -/
def joinNl : List Str → Str
  | [] => []
  | [l] => l
  | l :: ls => l ++ '\n' :: joinNl ls

/-- Python `s.rstrip("\n")`: strip trailing newline characters only. -/
def rstripNl (s : Str) : Str := (s.reverse.dropWhile (fun c => c == '\n')).reverse

/-- Decimal digits of a natural number, with structural fuel (`fuel > n`
always holds on the uses below, so the fuel never runs out). -/
def natToStrAux : Nat → Nat → Str
  | 0, _ => []
  | fuel + 1, n =>
    if n < 10 then [Char.ofNat (48 + n)]
    else natToStrAux fuel (n / 10) ++ [Char.ofNat (48 + n % 10)]

/-- Python `str(n)` for a natural number. -/
def natToStr (n : Nat) : Str := natToStrAux (n + 1) n

/-- Lexicographic strict comparison of Python strings (by code point). -/
def strLtB : Str → Str → Bool
  | [], [] => false
  | [], _ :: _ => true
  | _ :: _, [] => false
  | a :: as, b :: bs => if a < b then true else if b < a then false else strLtB as bs

/-- Stable insertion used by `ssort`: `x` goes before the first element it
compares `le` to, so elements with equal keys keep their original order
(CPython's `sorted` is stable). -/
def sInsert {α : Type} (le : α → α → Bool) (x : α) : List α → List α
  | [] => [x]
  | y :: ys => if le x y then x :: y :: ys else y :: sInsert le x ys

/-- Stable sort (insertion sort) modelling Python `sorted(…, key=…)`;
`le` must be the total preorder induced by the key. -/
def ssort {α : Type} (le : α → α → Bool) : List α → List α
  | [] => []
  | x :: xs => sInsert le x (ssort le xs)

/-- Append `v` to the list stored at key `k`, creating the key at the end
on first touch: the behaviour of `defaultdict(list)[k].append(v)` under
CPython's insertion-ordered dicts. -/
def ddAppend {α : Type} (d : List (Str × List α)) (k : Str) (v : α) : List (Str × List α) :=
  match d with
  | [] => [(k, [v])]
  | (k', vs) :: rest => if k' = k then (k', vs ++ [v]) :: rest else (k', vs) :: ddAppend rest k v

/-- Dictionary lookup defaulting to `[]` (reading a `defaultdict(list)` key,
or `d.get(k, [])`). -/
def dget {α : Type} (d : List (Str × List α)) (k : Str) : List α :=
  match d with
  | [] => []
  | (k', vs) :: rest => if k' = k then vs else dget rest k

/-- An embedded `re.Match`: the scanned text (`match.string`), the span
(`match.start()`, `match.end()`) and the first capture group
(`match.group(1)`). -/
structure RMatch where
  mstring : Str
  mstart : Nat
  mstop : Nat
  group1 : Str
deriving DecidableEq

/-- Generic `re.finditer` driver: try the deterministic matcher `mAt` at
every position, left to right and non-overlapping; on a match at `i`
ending at `e` resume at `e` (all matchers below return `e > i`, the
`max` only serves the termination argument).  `fuel` is structural fuel;
`fuel ≥ t.length - i` makes it irrelevant. -/
def finditerFuel {α : Type} (mAt : Str → Nat → Option (Nat × α)) (t : Str) :
    Nat → Nat → List (Nat × Nat × α)
  | 0, _ => []
  | fuel + 1, i =>
    if i < t.length then
      match mAt t i with
      | some (e, a) => (i, e, a) :: finditerFuel mAt t fuel (max e (i + 1))
      | none => finditerFuel mAt t fuel (i + 1)
    else []

/-- Generic `re.sub` driver: copy the text, replacing every match of
`mAt` (found as in `finditerFuel`) by `render` of its payload. -/
def resubFuel {α : Type} (mAt : Str → Nat → Option (Nat × α)) (render : α → Str) (t : Str) :
    Nat → Nat → Str
  | 0, i => t.drop i
  | fuel + 1, i =>
    if i < t.length then
      match mAt t i with
      | some (e, a) => render a ++ resubFuel mAt render t fuel (max e (i + 1))
      | none => (t.drop i).take 1 ++ resubFuel mAt render t fuel (i + 1)
    else []

/-- Matcher for the literal token `{{[[TODO]]}}` (resp. `{{[[DONE]]}}`)
followed by greedy `" *"`, the two patterns of `format_to_do`.  The
token contains no space, so greedy spaces never backtrack. -/
def todoMatchAt (tok : Str) (t : Str) (i : Nat) : Option (Nat × Unit) :=
  if tok.isPrefixOf (t.drop i) then
    some (i + tok.length + ((t.drop (i + tok.length)).takeWhile (fun c => c == ' ')).length, ())
  else none

/-- Embedding of `format_to_do`: `re.sub(r"{{\[\[TODO\]\]}} *", "[ ] ", …)`
then `re.sub(r"{{\[\[DONE\]\]}} *", "[x] ", …)`.  (`\x7b`/`\x7d` are the
brace characters.) -/
def format_to_do (contents : Str) : Str :=
  let c1 := resubFuel (todoMatchAt (lit "\x7b\x7b[[TODO]]\x7d\x7d")) (fun _ => lit "[ ] ")
    contents contents.length 0
  resubFuel (todoMatchAt (lit "\x7b\x7b[[DONE]]\x7d\x7d")) (fun _ => lit "[x] ") c1 c1.length 0

example : format_to_do (lit "a\n- \x7b\x7b[[TODO]]\x7d\x7dstring") = lit "a\n- [ ] string" := by
  decide

example : format_to_do (lit "a\n- \x7b\x7b[[DONE]]\x7d\x7dstring") = lit "a\n- [x] string" := by
  decide

example : format_to_do (lit "a\n- \x7b\x7b[[ZZZ]]\x7d\x7dstring") =
    lit "a\n- \x7b\x7b[[ZZZ]]\x7d\x7dstring" := by decide

/-- Matcher for `\[\[([^\]\n]+)\]\]`.  The capture group cannot contain
`]`, so the group must extend to the first `]`/`\n` after `[[` (greedy
run, no shorter parse can be followed by `]]`), and the match succeeds
iff that run is non-empty, ends at a `]`, and a second `]` follows. -/
def bracketMatchAt (t : Str) (i : Nat) : Option (Nat × Str) :=
  if (t.drop i).take 2 = lit "[[" then
    let grp := (t.drop (i + 2)).takeWhile (fun c => c != ']' && c != '\n')
    if 1 ≤ grp.length ∧ (t.drop (i + 2 + grp.length)).take 2 = lit "]]" then
      some (i + 2 + grp.length + 2, grp)
    else none
  else none

/-- The character class `[a-zA-Z-_0-9]` of the hash-tag regex (the `-`
after the `A-Z` range is a literal). -/
def isTagChar (c : Char) : Bool := c.isAlpha || c == '-' || c == '_' || c.isDigit

/-- Matcher for `#([a-zA-Z-_0-9]+)`: `#` followed by the greedy non-empty
run of tag characters. -/
def hashtagMatchAt (t : Str) (i : Nat) : Option (Nat × Str) :=
  if (t.drop i).take 1 = lit "#" then
    let grp := (t.drop (i + 1)).takeWhile isTagChar
    if 1 ≤ grp.length then some (i + 1 + grp.length, grp) else none
  else none

/-- Length of the greedy match of `((?:[^:\n]|:[^:\n])+)` (the attribute
key, "everything except `::`").  The consumed text can never contain
`::` (a consumed `:` is always followed by a non-colon), so the greedy
maximal run is the only parse that can be followed by `::`. -/
def attrKeyRun : Str → Nat
  | [] => 0
  | [c] => if c = '\n' || c = ':' then 0 else 1
  | c :: c2 :: rest =>
    if c = '\n' then 0
    else if c = ':' then
      if c2 != ':' && c2 != '\n' then 2 + attrKeyRun rest else 0
    else 1 + attrKeyRun (c2 :: rest)

/-- Well-formedness of an attribute key, for stating claim C7: no
newline, no `"::"` substring, and no trailing `':'` (a trailing colon
would merge with the terminating `"::"` and shorten the capture). -/
def keyOk : Str → Bool
  | [] => true
  | [c] => c != '\n' && c != ':'
  | c :: c2 :: rest => c != '\n' && (c != ':' || c2 != ':') && keyOk (c2 :: rest)

/-- Body of the attribute patterns after the line anchor: `" *- "` then
the key then `"::"`.  The greedy `" *"` cannot backtrack usefully (a
shorter space run would have to be followed by `-`, but the dropped
character is a space). -/
def attrBodyAt (t : Str) (j : Nat) : Option (Nat × Str) :=
  let sp := ((t.drop j).takeWhile (fun c => c == ' ')).length
  let k := j + sp
  if (t.drop k).take 2 = lit "- " then
    let key := (t.drop (k + 2)).take (attrKeyRun (t.drop (k + 2)))
    if 1 ≤ key.length ∧ (t.drop (k + 2 + key.length)).take 2 = lit "::" then
      some (k + 2 + key.length + 2, key)
    else none
  else none

/-- Matcher for the attribute pattern of `extract_links`:
`(?:^|\n) *- ((?:[^:\n]|:[^:\n])+)::` without `MULTILINE`, so `^` only
matches at position 0 and the `\n` alternative consumes the newline
(making it part of the match span).  At position 0 the regex first tries
the zero-width `^` branch and, failing that, backtracks into the `\n`
branch when the text starts with a newline. -/
def attrExtractMatchAt (t : Str) (i : Nat) : Option (Nat × Str) :=
  if i = 0 then
    match attrBodyAt t 0 with
    | some r => some r
    | none => if t.take 1 = lit "\n" then attrBodyAt t 1 else none
  else if (t.drop i).take 1 = lit "\n" then attrBodyAt t (i + 1)
  else none

/-- Matcher for the attribute pattern of `format_link`:
`(^ *- )(([^:\n]|:[^:\n])+)::` with `MULTILINE`, so `^` is a zero-width
line-start anchor.  The payload is (group 1 `"^ *- "`, group 2 the key). -/
def attrSubMatchAt (t : Str) (i : Nat) : Option (Nat × (Str × Str)) :=
  if i = 0 ∨ (t.drop (i - 1)).take 1 = lit "\n" then
    let sp := ((t.drop i).takeWhile (fun c => c == ' ')).length
    let k := i + sp
    if (t.drop k).take 2 = lit "- " then
      let key := (t.drop (k + 2)).take (attrKeyRun (t.drop (k + 2)))
      if 1 ≤ key.length ∧ (t.drop (k + 2 + key.length)).take 2 = lit "::" then
        some (k + 2 + key.length + 2, (slice t i (k + 2), key))
      else none
    else none
  else none

/-- Matcher for `https?://\S+` (`_url_spans`).  If the optional `s` is
present but not followed by `://`, the backtracked no-`s` parse needs
`://` starting at the `s` and also fails, so the parse is deterministic. -/
def urlMatchAt (t : Str) (i : Nat) : Option (Nat × Unit) :=
  if (t.drop i).take 4 = lit "http" then
    let j := if (t.drop (i + 4)).take 1 = lit "s" then i + 5 else i + 4
    if (t.drop j).take 3 = lit "://" then
      let run := ((t.drop (j + 3)).takeWhile (fun c => !pyIsSpace c)).length
      if 1 ≤ run then some (j + 3 + run, ()) else none
    else none
  else none

/-- Matcher for `re.escape(term)`: a literal occurrence of `term`.  The
empty term is rejected here only to keep the scanner total; the caller
(`_find_mentions_outside_links`) never reaches the scanner with it. -/
def litTermMatchAt (term : Str) (t : Str) (i : Nat) : Option (Nat × Unit) :=
  if term ≠ [] ∧ term.isPrefixOf (t.drop i) then some (i + term.length, ()) else none

/-- Run a matcher over a whole text, producing `RMatch` values. -/
def matchesOf (mAt : Str → Nat → Option (Nat × Str)) (t : Str) : List RMatch :=
  (finditerFuel mAt t t.length 0).map (fun r => ⟨t, r.1, r.2.1, r.2.2⟩)

/-- Embedding of `extract_links`: the bracketed-reference matches, then
the hash-tag matches, then the attribute matches. -/
def extract_links (s : Str) : List RMatch :=
  matchesOf bracketMatchAt s ++ matchesOf hashtagMatchAt s ++ matchesOf attrExtractMatchAt s

/-- Embedding of `format_link`: the three `re.sub` rewrites (bracketed
reference, hash-tag, attribute) in source order; `lp` is `link_prefix`. -/
def format_link (s : Str) (lp : Str) : Str :=
  let s1 := resubFuel bracketMatchAt
    (fun g => lit "[" ++ g ++ lit "](<" ++ lp ++ g ++ lit ".md>)") s s.length 0
  let s2 := resubFuel hashtagMatchAt
    (fun g => lit "[" ++ g ++ lit "](<" ++ lp ++ g ++ lit ".md>)") s1 s1.length 0
  resubFuel attrSubMatchAt
    (fun p => p.1 ++ lit "**[" ++ p.2 ++ lit "](<" ++ lp ++ p.2 ++ lit ".md>):**") s2 s2.length 0

example : (extract_links (lit "string [[link]].")).map RMatch.group1 = [lit "link"] := by decide

example : (extract_links (lit "[[link]] [[other]]")).map RMatch.group1 =
    [lit "link", lit "other"] := by decide

example : (extract_links (lit "  - string: link")).map RMatch.group1 = [] := by decide

example : (extract_links (lit "- attrib:: link:: val")).map RMatch.group1 = [lit "attrib"] := by
  decide

example : (extract_links (lit "- attrib:is:: link")).map RMatch.group1 = [lit "attrib:is"] := by
  decide

example : (extract_links (lit "  - attrib:: link\n  - attrib2:: link")).map RMatch.group1 =
    [lit "attrib", lit "attrib2"] := by decide

example : format_link (lit "string [[link]].") [] = lit "string [link](<link.md>)." := by decide

example : format_link (lit "string [[link]].") (lit "../../") =
    lit "string [link](<../../link.md>)." := by decide

example : format_link (lit "string #link.") [] = lit "string [link](<link.md>)." := by decide

example : format_link (lit "  - string:: link") [] = lit "  - **[string](<string.md>):** link" := by
  decide

example : format_link (lit "- attrib:: string:: val") [] =
    lit "- **[attrib](<attrib.md>):** string:: val" := by decide

example : format_link (lit "- attrib:is:: string") [] =
    lit "- **[attrib:is](<attrib:is.md>):** string" := by decide

/-- Auxiliary scan for `findNl`: first `'\n'` in the list, indices offset
by `i`. -/
def findNlAux : Str → Nat → Option Nat
  | [], _ => none
  | c :: rest, i => if c = '\n' then some i else findNlAux rest (i + 1)

/-- Python `text.find("\n", pos)` as an `Option` (`none` ↔ `-1`). -/
def findNl (t : Str) (pos : Nat) : Option Nat := findNlAux (t.drop pos) pos

/-- Index of the last `'\n'` of a list, if any. -/
def rlastNl : Str → Option Nat
  | [] => none
  | c :: rest =>
    match rlastNl rest with
    | some j => some (j + 1)
    | none => if c = '\n' then some 0 else none

/-- Python `text.rfind("\n", 0, stop)` as an `Option` (`none` ↔ `-1`). -/
def rfindNl (t : Str) (stop : Nat) : Option Nat := rlastNl (t.take stop)

/-- `line_start = text.rfind("\n", 0, start) + 1` of
`_extract_line_with_children`. -/
def lineStartOf (text : Str) (start : Nat) : Nat :=
  match rfindNl text start with
  | some j => j + 1
  | none => 0

/-- `line_end = text.find("\n", end)` of `_extract_line_with_children`,
defaulting to `len(text)` when there is no further newline. -/
def lineEndOf (text : Str) (stop : Nat) : Nat := (findNl text stop).getD text.length

/-- The lines visited by the `while` loop of `_extract_line_with_children`:
the loop starts at `pos = line_end + 1` and consumes one newline-terminated
line per iteration (`line = text[pos:next_end]`, `pos = next_end + 1`),
i.e. exactly the `"\n"`-separated pieces of `text[line_end+1:]` — except
that when the text ends in `"\n"` the final empty piece of the split is a
phantom the loop never visits (its `pos` would already be `len(text)`).
The `rstrip("\n")` the source applies to each line is the identity, since
`next_end` is the position of the next newline. -/
def linesAfter (text : Str) (line_end : Nat) : List Str :=
  if text.length ≤ line_end + 1 then []
  else
    let pieces := splitNl (text.drop (line_end + 1))
    if text.getLast? = some '\n' then pieces.dropLast else pieces

/-- The child-collection loop of `_extract_line_with_children`, over the
list of lines after the base line: blank lines are kept verbatim; a
non-blank line with indent `≤ base` stops the scan; the first non-blank
line fixes `first_child_indent` (`fci`); a later line with smaller indent
stops the scan; the first line deeper than `fci` fixes
`second_child_indent` (`sci`); a line deeper than `sci` stops the scan.
Returns the kept lines together with the final `(fci, sci)` state. -/
def scanChildren (base : Nat) : List Str → Option Nat → Option Nat →
    List Str × Option Nat × Option Nat
  | [], fci, sci => ([], fci, sci)
  | line :: rest, fci, sci =>
    if isBlank line then
      let r := scanChildren base rest fci sci
      (line :: r.1, r.2)
    else
      let ind := indentOf line
      if ind ≤ base then ([], fci, sci)
      else
        let f := fci.getD ind
        if ind < f then ([], fci, sci)
        else
          let sci2 := if f < ind ∧ sci = none then some ind else sci
          match sci2 with
          | some s =>
            if s < ind then ([], some f, sci2)
            else
              let r := scanChildren base rest (some f) sci2
              (line :: r.1, r.2)
          | none =>
            let r := scanChildren base rest (some f) none
            (line :: r.1, r.2)

/-- Embedding of `_strip_leading_spaces`: strip up to `count` leading
spaces, leaving blank lines untouched. -/
def _strip_leading_spaces (line : Str) (count : Nat) : Str :=
  if isBlank line then line
  else line.drop (min (indentOf line) count)

/-- The `current_line` of `_extract_line_with_children`:
`text[line_start:line_end].rstrip()`. -/
def currentLineOf (text : Str) (start stop : Nat) : Str :=
  pyRstrip (slice text (lineStartOf text start) (lineEndOf text stop))

/-- The `base_indent` of `_extract_line_with_children`. -/
def baseIndentOf (text : Str) (start stop : Nat) : Nat :=
  indentOf (currentLineOf text start stop)

/-- The `child_lines` collected by the loop of
`_extract_line_with_children`. -/
def childLinesOf (text : Str) (start stop : Nat) : List Str :=
  (scanChildren (baseIndentOf text start stop) (linesAfter text (lineEndOf text stop))
    none none).1

/-- Embedding of `_extract_line_with_children` (`stop` is the Python
parameter `end`, a Lean keyword): the base line plus the kept child
lines, dedented by the base indent when it is positive, joined and with
trailing newlines stripped. -/
def _extract_line_with_children (text : Str) (start stop : Nat) : Str :=
  rstripNl (joinNl
    (if 0 < baseIndentOf text start stop then
      (currentLineOf text start stop :: childLinesOf text start stop).map
        (fun l => _strip_leading_spaces l (baseIndentOf text start stop))
    else currentLineOf text start stop :: childLinesOf text start stop))

example : _extract_line_with_children
    (lit "- Parent [[Target]]\n  - Child context\n    - Grandchild\n") 9 19 =
    lit "- Parent [[Target]]\n  - Child context\n    - Grandchild" := by decide

example : _extract_line_with_children
    (lit "- Parent [[Target]]\n  - Child\n    - Grandchild\n      - Great grandchild\n") 9 19 =
    lit "- Parent [[Target]]\n  - Child\n    - Grandchild" := by decide

example : _extract_line_with_children (lit "    - Deep [[Target]]\n      - Child\n") 11 21 =
    lit "- Deep [[Target]]\n  - Child" := by decide

example : _extract_line_with_children (lit "  - Nested [[Target]]\n    - Child\n") 11 21 =
    lit "- Nested [[Target]]\n  - Child" := by decide

/-- One line of the `MULTILINE` regex `^ *- +Aliases:: *(.+)$` of
`_extract_aliases` (case-insensitive key; `$`/`^` make the scan
per-line, and `.` cannot cross a newline, so matching the whole text is
matching each line).  The group is the rest of the line after the greedy
`" *"`; when that rest is all spaces and non-empty, the greedy `" *"`
backtracks one space so `(.+)` matches a single space. -/
def aliasLineValue (line : Str) : Option Str :=
  let s1 := line.dropWhile (fun c => c == ' ')
  match s1 with
  | '-' :: s2 =>
    let sp := (s2.takeWhile (fun c => c == ' ')).length
    if 1 ≤ sp then
      let s3 := s2.drop sp
      if (s3.take 9).map Char.toLower = lit "aliases::" then
        let v := s3.drop 9
        let v2 := v.dropWhile (fun c => c == ' ')
        if 1 ≤ v2.length then some v2
        else if 1 ≤ v.length then some [' ']
        else none
      else none
    else none
  | _ => none

/-- Embedding of `_extract_aliases`: for every matching line, split the
value on commas, strip each part, drop empty parts, and append the
survivors in encounter order (no deduplication happens here). -/
def _extract_aliases (content : Str) : List Str :=
  ((splitNl content).filterMap aliasLineValue).foldl
    (fun acc m => acc ++ ((splitSep ',' m).map pyStripAll).filter (fun a => !a.isEmpty)) []

/-- Embedding of `_unique_terms` (`seen` models the Python `set`): keep
the first occurrence of each term, in order. -/
def uniqueAux (seen : List Str) : List Str → List Str
  | [] => []
  | t :: rest => if t ∈ seen then uniqueAux seen rest else t :: uniqueAux (t :: seen) rest

/-- Embedding of `_unique_terms`. -/
def _unique_terms (terms : List Str) : List Str := uniqueAux [] terms

example : _extract_aliases (lit "- Aliases:: a, b ,, c\ntext\n- aliases::  a") =
    [lit "a", lit "b", lit "c", lit "a"] := by decide

example : _unique_terms [lit "a", lit "b", lit "a"] = [lit "a", lit "b"] := by decide

/-- Embedding of `_link_spans`: the `(start, end)` spans of the matches,
sorted by start offset (`sorted` with key `s[0]`, stable). -/
def _link_spans (ms : List RMatch) : List (Nat × Nat) :=
  ssort (fun a b => decide (a.1 ≤ b.1)) (ms.map (fun m => (m.mstart, m.mstop)))

/-- Embedding of `_url_spans`: spans of `https?://\S+` matches (these are
produced by `re.finditer` in text order, hence sorted by start). -/
def _url_spans (t : Str) : List (Nat × Nat) :=
  (finditerFuel urlMatchAt t t.length 0).map (fun r => (r.1, r.2.1))

/-- The `inside` / `inside_url` helper of `_find_mentions_outside_links`:
linear scan with early exit once a span starts past the position. -/
def insideScan (spans : List (Nat × Nat)) (pos : Nat) : Bool :=
  match spans with
  | [] => false
  | (s, e) :: rest =>
    if s ≤ pos ∧ pos < e then true
    else if pos < s then false
    else insideScan rest pos

/-- The matches of `re.finditer(re.escape(term), text)`: literal
non-overlapping occurrences of `term`, left to right.  (The escaped
pattern has no capture group; `group1` stores the matched text, which no
consumer reads.) -/
def litFinditer (term : Str) (t : Str) : List RMatch :=
  (finditerFuel (litTermMatchAt term) t t.length 0).map (fun r => ⟨t, r.1, r.2.1, term⟩)

/-- Embedding of `_find_mentions_outside_links`. -/
def _find_mentions_outside_links (text term : Str) (link_spans url_spans : List (Nat × Nat)) :
    List RMatch :=
  if term = [] then []
  else (litFinditer term text).filter
    (fun m => !(insideScan link_spans m.mstart || insideScan url_spans m.mstart))

/-- Embedding of `_build_back_links`: every Reference of every document is
appended under the key `match.group(1) + ".md"` — with no check that the
key names a document of the corpus, and no exclusion of self-references. -/
def _build_back_links (forward : List (Str × List RMatch)) : List (Str × List (Str × RMatch)) :=
  forward.foldl
    (fun acc p => p.2.foldl (fun acc2 l => ddAppend acc2 (l.group1 ++ lit ".md") (p.1, l)) acc) []

/-- Embedding of `get_back_links`. -/
def get_back_links (contents : List (Str × Str)) : List (Str × List (Str × RMatch)) :=
  _build_back_links (contents.map (fun p => (p.1, extract_links p.2)))

/-- The per-term mention loop of `_build_unlinked_links`: for each term in
order, find its mentions and keep those whose `(start, end)` span was not
already seen for this target (`seen_spans`). -/
def scanTerms (content : Str) (spans urls : List (Nat × Nat)) :
    List Str → List (Nat × Nat) → List (Str × RMatch)
  | [], _ => []
  | term :: rest, seen =>
    let step := (_find_mentions_outside_links content term spans urls).foldl
      (fun (acc : List (Str × RMatch) × List (Nat × Nat)) m =>
        if (m.mstart, m.mstop) ∈ acc.2 then acc
        else (acc.1 ++ [(term, m)], (m.mstart, m.mstop) :: acc.2))
      ([], seen)
    step.1 ++ scanTerms content spans urls rest step.2

/-- The per-source-per-target loop of `_build_unlinked_links`; skips the
pair when `target_file == source_file`. -/
def buildUnlinkedTargets (aliasD : List (Str × List Str)) (source content : Str)
    (spans urls : List (Nat × Nat)) (acc : List (Str × List (Str × Str × RMatch))) :
    List (Str × Str) → List (Str × List (Str × Str × RMatch))
  | [] => acc
  | (tf, tn) :: rest =>
    if tf = source then buildUnlinkedTargets aliasD source content spans urls acc rest
    else
      let terms := _unique_terms (tn :: dget aliasD tf)
      let kept := scanTerms content spans urls terms []
      let acc2 := kept.foldl (fun a p => ddAppend a tf (source, p.1, p.2)) acc
      buildUnlinkedTargets aliasD source content spans urls acc2 rest

/-- Embedding of `_build_unlinked_links`. -/
def _build_unlinked_links (contents : List (Str × Str)) (forward : List (Str × List RMatch)) :
    List (Str × List (Str × Str × RMatch)) :=
  let page_names := contents.map (fun p => (p.1, p.1.take (p.1.length - 3)))
  let aliasD := contents.map (fun p => (p.1, _extract_aliases p.2))
  contents.foldl
    (fun acc p =>
      buildUnlinkedTargets aliasD p.1 p.2 (_link_spans (dget forward p.1)) (_url_spans p.2) acc
        page_names)
    []

/-- Order-preserving deduplication with a `seen` accumulator, modelling
Python's `set(...)` materialization of already-distinct elements (the
tuples fed to it contain `re.Match` objects, distinct by identity; the
subsequent `sorted` by key then fixes the order completely except for
exact key ties, which the inputs never produce). -/
def dedupFirstAux {α : Type} [DecidableEq α] (seen : List α) : List α → List α
  | [] => []
  | x :: xs => if x ∈ seen then dedupFirstAux seen xs else x :: dedupFirstAux (x :: seen) xs

/-- The sort key `(e[0], e[1].start())` of the renderers, as a `≤` test:
display name lexicographically, then match start. -/
def pairKeyLe (a b : Str × RMatch) : Bool :=
  strLtB a.1 b.1 || (decide (a.1 = b.1) && decide (a.2.mstart ≤ b.2.mstart))

/-- The rendering loop of `add_back_links`: a `##` heading whenever the
source display name changes, then each context block followed by a blank
line. -/
def renderBackEntries (before : Option Str) : List (Str × RMatch) → List Str
  | [] => []
  | (file, m) :: rest =>
    let hdr : List Str :=
      if before = some file then []
      else [lit "## [" ++ file ++ lit "](<" ++ file ++ lit ".md>)"]
    hdr ++ _extract_line_with_children m.mstring m.mstart m.mstop :: [] ::
      renderBackEntries (some file) rest

/-- Embedding of `add_back_links`. -/
def add_back_links (content : Str) (back_links : List (Str × RMatch)) : Str :=
  if back_links = [] then content
  else
    let files := ssort pairKeyLe
      (dedupFirstAux [] (back_links.map (fun p => (p.1.take (p.1.length - 3), p.2))))
    content ++ lit "\n# Backlinks (" ++ natToStr back_links.length ++ lit ")\n" ++
      joinNl (renderBackEntries none files) ++ lit "\n"

/-- The inner rendering loop of `add_unlinked_links` for one term group:
a `###` heading whenever the source display name changes (emitted before
the deduplication test), then each not-yet-seen `(source, context)` block
followed by a blank line; the second component counts the blocks
actually displayed. -/
def renderUnlinkedEntries (before : Option Str) (seen : List (Str × Str)) :
    List (Str × RMatch) → List Str × Nat
  | [] => ([], 0)
  | (sf, m) :: rest =>
    let file := sf.take (sf.length - 3)
    let hdr : List Str :=
      if before = some file then []
      else [lit "### [" ++ file ++ lit "](<" ++ file ++ lit ".md>)"]
    let context := _extract_line_with_children m.mstring m.mstart m.mstop
    if (file, context) ∈ seen then
      let r := renderUnlinkedEntries (some file) seen rest
      (hdr ++ r.1, r.2)
    else
      let r := renderUnlinkedEntries (some file) ((file, context) :: seen) rest
      (hdr ++ context :: [] :: r.1, r.2 + 1)

/-- The outer rendering loop of `add_unlinked_links`: one `##` heading per
term, entries sorted by `(source, start)`, fresh `file_before` /
`seen_blocks` state per term; the second component is `display_count`. -/
def renderUnlinkedGroups : List (Str × List (Str × RMatch)) → List Str × Nat
  | [] => ([], 0)
  | (term, entries) :: rest =>
    let r1 := renderUnlinkedEntries none [] (ssort pairKeyLe entries)
    let r2 := renderUnlinkedGroups rest
    ((lit "## " ++ term) :: r1.1 ++ r2.1, r1.2 + r2.2)

/-- The `grouped` defaultdict of `add_unlinked_links`: entries grouped by
matched term, in first-encounter key order. -/
def groupByTerm (ul : List (Str × Str × RMatch)) : List (Str × List (Str × RMatch)) :=
  ul.foldl (fun acc e => ddAppend acc e.2.1 (e.1, e.2.2)) []

/-- The `(new_lines, display_count)` pair of `add_unlinked_links`:
groups sorted by term (`sorted(grouped.keys())` becomes a sort of the
group list by key, the keys being distinct), then rendered. -/
def unlinkedRendered (unlinked_links : List (Str × Str × RMatch)) : List Str × Nat :=
  renderUnlinkedGroups
    (ssort (fun a b => strLtB a.1 b.1 || decide (a.1 = b.1)) (groupByTerm unlinked_links))

/-- Embedding of `add_unlinked_links`. -/
def add_unlinked_links (content : Str) (unlinked_links : List (Str × Str × RMatch)) : Str :=
  if unlinked_links = [] then content
  else if (unlinkedRendered unlinked_links).2 = 0 then content
  else
    content ++ lit "\n# Unlinked references (" ++ natToStr (unlinkedRendered unlinked_links).2 ++
      lit ")\n" ++ joinNl (unlinkedRendered unlinked_links).1 ++ lit "\n"

/-- Python `s * n` for strings. -/
def strMul (s : Str) : Nat → Str
  | 0 => []
  | n + 1 => s ++ strMul s n

/-- The `link_prefix` computation of `format_markdown`:
`"../" * sum("/" in char for char in file_name)` — the generator ranges
over the characters of the key, so the sum counts its `'/'` characters. -/
def link_pref (file_name : Str) : Str :=
  strMul (lit "../") ((file_name.map (fun c => if c = '/' then 1 else 0)).sum)

/-- Embedding of `format_markdown`: build both indexes from the raw
texts, then per document append the backlink section, append the
unlinked section, rewrite todo markers, rewrite links with the
hierarchy-derived parent-directory accumulation, and drop documents whose
final text is empty. -/
def format_markdown (contents : List (Str × Str)) : List (Str × Str) :=
  let forward := contents.map (fun p => (p.1, extract_links p.2))
  let back := _build_back_links forward
  let unlinked := _build_unlinked_links contents forward
  (contents.map (fun p =>
    let c1 := add_back_links p.2 (dget back p.1)
    let c2 := add_unlinked_links c1 (dget unlinked p.1)
    let c3 := format_to_do c2
    (p.1, format_link c3 (link_pref p.1)))).filter (fun p => 0 < p.2.length)

example : format_markdown
    [(lit "Source.md", lit "- Parent [[Target]]\n  - Child context\n    - Grandchild\n"),
     (lit "Target.md", lit "Content")] =
    [(lit "Source.md", lit "- Parent [Target](<Target.md>)\n  - Child context\n    - Grandchild\n"),
     (lit "Target.md",
      lit "Content\n# Backlinks (1)\n## [Source](<Source.md>)\n- Parent [Target](<Target.md>)\n  - Child context\n    - Grandchild\n\n")] := by
  decide

example : format_markdown
    [(lit "Source.md", lit "- Mention Target\n  - Child\n"),
     (lit "Target.md", lit "Content")] =
    [(lit "Source.md", lit "- Mention Target\n  - Child\n"),
     (lit "Target.md",
      lit "Content\n# Unlinked references (1)\n## Target\n### [Source](<Source.md>)\n- Mention Target\n  - Child\n\n")] := by
  decide

example : format_markdown
    [(lit "Source.md", lit "- Parent [[Target]]\n  - Child\n"),
     (lit "Target.md", lit "Content")] =
    [(lit "Source.md", lit "- Parent [Target](<Target.md>)\n  - Child\n"),
     (lit "Target.md",
      lit "Content\n# Backlinks (1)\n## [Source](<Source.md>)\n- Parent [Target](<Target.md>)\n  - Child\n\n")] := by
  decide

/-! ### General lemmas about the dictionary model -/

theorem dget_ddAppend {α : Type} (d : List (Str × List α)) (k k' : Str) (v : α) :
    dget (ddAppend d k v) k' = if k = k' then dget d k' ++ [v] else dget d k' := by
  induction d with
  | nil =>
    by_cases h : k = k' <;> simp [ddAppend, dget, h]
  | cons p rest ih =>
    obtain ⟨k0, vs⟩ := p
    by_cases h1 : k0 = k
    · subst h1
      by_cases h2 : k0 = k' <;> simp [ddAppend, dget, h2]
    · by_cases h2 : k0 = k'
      · subst h2
        have hk : ¬k = k0 := fun h => h1 h.symm
        simp [ddAppend, dget, h1, hk]
      · simp [ddAppend, dget, h1, h2, ih]

/-- Membership in a `dget` bucket is monotone under any `ddAppend`. -/
theorem mem_dget_ddAppend_of_mem {α : Type} {d : List (Str × List α)} {key : Str} {e : α}
    (k : Str) (v : α) (h : e ∈ dget d key) : e ∈ dget (ddAppend d k v) key := by
  rw [dget_ddAppend]
  by_cases hk : k = key <;> simp [hk, h]

/-- The freshly appended value is in its bucket. -/
theorem mem_dget_ddAppend_self {α : Type} (d : List (Str × List α)) (k : Str) (v : α) :
    v ∈ dget (ddAppend d k v) k := by
  rw [dget_ddAppend]
  simp

/-! ### Lemmas for the backlink index (claims C1 and C2) -/

/-- One document's links are folded into the index; membership is
monotone. -/
theorem mem_dget_backFoldInner {α : Type} [DecidableEq α]
    (fn : Str) (mk : α → Str) (links : List α) (acc : List (Str × List (Str × α)))
    {key : Str} {e : Str × α} (h : e ∈ dget acc key) :
    e ∈ dget (links.foldl (fun a l => ddAppend a (mk l) (fn, l)) acc) key := by
  induction links generalizing acc with
  | nil => exact h
  | cons l rest ih => exact ih _ (mem_dget_ddAppend_of_mem _ _ h)

/-- Each link of the folded document lands in its bucket. -/
theorem mem_dget_backFoldInner_self {α : Type} [DecidableEq α]
    (fn : Str) (mk : α → Str) (links : List α) (acc : List (Str × List (Str × α)))
    {m : α} (h : m ∈ links) :
    (fn, m) ∈ dget (links.foldl (fun a l => ddAppend a (mk l) (fn, l)) acc) (mk m) := by
  induction links generalizing acc with
  | nil => cases h
  | cons l rest ih =>
    rcases List.mem_cons.mp h with h1 | h1
    · subst h1
      exact mem_dget_backFoldInner fn mk rest _ (mem_dget_ddAppend_self _ _ _)
    · exact ih _ h1

/-- Over the whole corpus fold of `_build_back_links`: membership is
monotone. -/
theorem mem_dget_backFoldOuter (forward : List (Str × List RMatch))
    (acc : List (Str × List (Str × RMatch))) {key : Str} {e : Str × RMatch}
    (h : e ∈ dget acc key) :
    e ∈ dget
      (forward.foldl
        (fun a p => p.2.foldl (fun a2 l => ddAppend a2 (l.group1 ++ lit ".md") (p.1, l)) a) acc)
      key := by
  induction forward generalizing acc with
  | nil => exact h
  | cons p rest ih => exact ih _ (mem_dget_backFoldInner p.1 _ p.2 acc h)

/-- Every Reference of every document of the corpus has an entry in the
backlink index, keyed by its raw target name plus `".md"` — with no
existence check against the corpus. -/
theorem backlink_entry_total (forward : List (Str × List RMatch))
    (acc : List (Str × List (Str × RMatch))) (fn : Str)
    (links : List RMatch) (m : RMatch) (hf : (fn, links) ∈ forward) (hm : m ∈ links) :
    (fn, m) ∈ dget
      (forward.foldl
        (fun a p => p.2.foldl (fun a2 l => ddAppend a2 (l.group1 ++ lit ".md") (p.1, l)) a) acc)
      (m.group1 ++ lit ".md") := by
  induction forward generalizing acc with
  | nil => cases hf
  | cons p rest ih =>
    rcases List.mem_cons.mp hf with h1 | h1
    · cases h1
      simp only [List.foldl_cons]
      exact mem_dget_backFoldOuter rest _
        (mem_dget_backFoldInner_self fn (fun l => l.group1 ++ lit ".md") links acc hm)
    · exact ih _ h1

/-! ### Lemmas for the unlinked-mention index (claim C1) -/

/-- Appending entries for a fixed `(source, target)` pair with
`source ≠ tf` preserves the no-self-reference invariant. -/
theorem noself_appendEntries (kept : List (Str × RMatch)) (tf source : Str)
    (acc : List (Str × List (Str × Str × RMatch))) (htf : source ≠ tf)
    (hacc : ∀ tgt e, e ∈ dget acc tgt → e.1 ≠ tgt) :
    ∀ tgt e, e ∈ dget (kept.foldl (fun a p => ddAppend a tf (source, p.1, p.2)) acc) tgt →
      e.1 ≠ tgt := by
  induction kept generalizing acc with
  | nil => exact hacc
  | cons p rest ih =>
    refine ih _ ?_
    intro tgt e he
    rw [dget_ddAppend] at he
    by_cases h : tf = tgt
    · subst h
      rw [if_pos rfl] at he
      rcases List.mem_append.mp he with he | he
      · exact hacc _ _ he
      · have heq : e = (source, p.1, p.2) := List.mem_singleton.mp he
        rw [heq]
        exact htf
    · rw [if_neg h] at he
      exact hacc _ _ he

/-- The per-source loop of `_build_unlinked_links` preserves the
no-self-reference invariant (the `target == source` pair is skipped). -/
theorem noself_buildTargets (aliasD : List (Str × List Str)) (source content : Str)
    (spans urls : List (Nat × Nat)) (pages : List (Str × Str))
    (acc : List (Str × List (Str × Str × RMatch)))
    (hacc : ∀ tgt e, e ∈ dget acc tgt → e.1 ≠ tgt) :
    ∀ tgt e, e ∈ dget (buildUnlinkedTargets aliasD source content spans urls acc pages) tgt →
      e.1 ≠ tgt := by
  induction pages generalizing acc with
  | nil => exact hacc
  | cons p rest ih =>
    obtain ⟨tf, tn⟩ := p
    by_cases h : tf = source
    · rw [buildUnlinkedTargets, if_pos h]
      exact ih _ hacc
    · rw [buildUnlinkedTargets, if_neg h]
      exact ih _ (noself_appendEntries _ _ _ _ (fun h' => h h'.symm) hacc)

/-- The corpus fold of `_build_unlinked_links` preserves the
no-self-reference invariant. -/
theorem noself_outerFold (pages : List (Str × Str)) (aliasD : List (Str × List Str))
    (forward : List (Str × List RMatch)) (cs : List (Str × Str))
    (acc : List (Str × List (Str × Str × RMatch)))
    (hacc : ∀ tgt e, e ∈ dget acc tgt → e.1 ≠ tgt) :
    ∀ tgt e,
      e ∈ dget
        (cs.foldl
          (fun a p =>
            buildUnlinkedTargets aliasD p.1 p.2 (_link_spans (dget forward p.1)) (_url_spans p.2)
              a pages) acc) tgt →
      e.1 ≠ tgt := by
  induction cs generalizing acc with
  | nil => exact hacc
  | cons p rest ih =>
    exact ih _ (noself_buildTargets aliasD p.1 p.2 _ _ pages acc hacc)

/-- Claim C1 (amended): the unlinked-mention index never records a
document as an unlinked-mention source for itself — `_build_unlinked_links`
skips every `target == source` pair at the scanning stage.  (The backlink
index does not share this property; see the counterexample.) -/
theorem C1_no_self_unlinked (contents : List (Str × Str)) (forward : List (Str × List RMatch))
    (tgt : Str) (e : Str × Str × RMatch)
    (he : e ∈ dget (_build_unlinked_links contents forward) tgt) : e.1 ≠ tgt := by
  have h := noself_outerFold (contents.map (fun p => (p.1, p.1.take (p.1.length - 3))))
    (contents.map (fun p => (p.1, _extract_aliases p.2))) forward contents []
    (fun _ _ h => absurd h (by simp [dget]))
  exact h tgt e he

/-- Claim C1 witness: a concrete corpus where `B.md` mentions `T` shows a
real unlinked entry, whose source is indeed a different document. -/
theorem C1_no_self_unlinked_witness : lit "B.md" ≠ lit "T.md" :=
  C1_no_self_unlinked [(lit "B.md", lit "T"), (lit "T.md", lit "x")]
    [(lit "B.md", extract_links (lit "T")), (lit "T.md", extract_links (lit "x"))]
    (lit "T.md") (lit "B.md", lit "T", ⟨lit "T", 0, 1, lit "T"⟩) (by decide)

/-- Claim C1 counterexample: the backlink half of the claim fails — a
document whose text links to itself (`A.md` containing `[[A]]`) appears
as a backlink source for itself in the index built by
`_build_back_links`. -/
theorem C1_counterexample :
    (dget (get_back_links [(lit "A.md", lit "[[A]]")]) (lit "A.md")).map Prod.fst =
      [lit "A.md"] := by decide

/-- Claim C2 (amended): `_build_back_links` records an entry for *every*
Reference under the key `raw target name + ".md"`, whether or not that
key names a corpus document (there is no existence check); a Reference
whose target is missing from the corpus is simply never consulted when
rendering, silently and without error, as the concrete corpus
`{"A.md": "[[B]]"}` shows. -/
theorem C2_index_unconditional (forward : List (Str × List RMatch)) (fn : Str)
    (links : List RMatch) (m : RMatch) (hf : (fn, links) ∈ forward) (hm : m ∈ links) :
    (fn, m) ∈ dget (_build_back_links forward) (m.group1 ++ lit ".md") ∧
      format_markdown [(lit "A.md", lit "[[B]]")] = [(lit "A.md", lit "[B](<B.md>)")] :=
  ⟨backlink_entry_total forward [] fn links m hf hm, by decide⟩

/-- Claim C2 witness: instantiation at the one-document corpus whose only
Reference targets the missing document `B.md`. -/
theorem C2_index_unconditional_witness :
    (lit "A.md", (⟨lit "[[B]]", 0, 5, lit "B"⟩ : RMatch)) ∈
        dget (_build_back_links [(lit "A.md", [⟨lit "[[B]]", 0, 5, lit "B"⟩])])
          ((⟨lit "[[B]]", 0, 5, lit "B"⟩ : RMatch).group1 ++ lit ".md") ∧
      format_markdown [(lit "A.md", lit "[[B]]")] = [(lit "A.md", lit "[B](<B.md>)")] :=
  C2_index_unconditional [(lit "A.md", [⟨lit "[[B]]", 0, 5, lit "B"⟩])] (lit "A.md")
    [⟨lit "[[B]]", 0, 5, lit "B"⟩] ⟨lit "[[B]]", 0, 5, lit "B"⟩ (by decide) (by decide)

/-- Claim C2 counterexample: the claimed "only if" direction fails — the
index built by `get_back_links` on `{"A.md": "[[B]]"}` does contain an
entry keyed `"B.md"` although no document `B.md` exists in the corpus. -/
theorem C2_counterexample :
    lit "B.md" ∈ (get_back_links [(lit "A.md", lit "[[B]]")]).map Prod.fst ∧
      lit "B.md" ∉ ([(lit "A.md", lit "[[B]]")] : List (Str × Str)).map Prod.fst := by
  decide

/-- Sum of the `'/'` indicator over the characters equals the `'/'` count. -/
theorem sum_indicator_count (l : Str) :
    (l.map (fun c => if c = '/' then 1 else 0)).sum = l.count '/' := by
  induction l with
  | nil => rfl
  | cons c rest ih =>
    by_cases h : c = '/' <;>
      simp [List.count_cons, ih, h, Nat.add_comm, beq_iff_eq]

/-- Claim C8: the link prefix used when rewriting a document's references
is one `"../"` segment per `'/'` hierarchy separator in its key, and a
document keyed `"folder/Note.md"` rewrites `[[X]]` into the target
`"../X.md"`, also through the whole pipeline. -/
theorem C8_link_pref_segments :
    (∀ file_name : Str, link_pref file_name = strMul (lit "../") (file_name.count '/')) ∧
      link_pref (lit "folder/Note.md") = lit "../" ∧
      format_link (lit "[[X]]") (link_pref (lit "folder/Note.md")) = lit "[X](<../X.md>)" ∧
      format_markdown [(lit "folder/Note.md", lit "[[X]]")] =
        [(lit "folder/Note.md", lit "[X](<../X.md>)")] :=
  ⟨fun file_name => by simp only [link_pref, sum_indicator_count], by decide, by decide, by decide⟩

/-- Claim C9: `format_to_do` rewrites the pending marker (with optional
trailing spaces) into an open checkbox and the complete marker into a
checked checkbox, leaving an unrecognized bracketed marker untouched. -/
theorem C9_format_to_do_markers :
    format_to_do (lit "a\n- \x7b\x7b[[TODO]]\x7d\x7dstring") = lit "a\n- [ ] string" ∧
      format_to_do (lit "a\n- \x7b\x7b[[DONE]]\x7d\x7dstring") = lit "a\n- [x] string" ∧
      format_to_do (lit "a\n- \x7b\x7b[[ZZZ]]\x7d\x7dstring") =
        lit "a\n- \x7b\x7b[[ZZZ]]\x7d\x7dstring" :=
  ⟨by decide, by decide, by decide⟩

/-! ### Lemmas for the alias resolver (claim C3) -/

theorem pyRstrip_eq_rdropWhile (s : Str) : pyRstrip s = List.rdropWhile pyIsSpace s := rfl

theorem dropWhile_head_false {p : Char → Bool} {l : Str} {c : Char} {r : Str}
    (h : l.dropWhile p = c :: r) : p c = false := by
  induction l with
  | nil => cases h
  | cons a t ih =>
    rw [List.dropWhile_cons] at h
    by_cases hp : p a
    · rw [if_pos hp] at h
      exact ih h
    · rw [if_neg hp] at h
      cases h
      simpa using hp

/-- A stripped string has no leading whitespace left. -/
theorem stripAll_dropWhile (s : Str) :
    (pyStripAll s).dropWhile pyIsSpace = pyStripAll s := by
  cases h : pyStripAll s with
  | nil => rfl
  | cons c r =>
    have hpre : pyStripAll s <+: s.dropWhile pyIsSpace := by
      rw [pyStripAll, pyRstrip_eq_rdropWhile]
      exact List.rdropWhile_prefix _ _
    rw [h] at hpre
    obtain ⟨t, ht⟩ := hpre
    have hc : pyIsSpace c = false := dropWhile_head_false (l := s) (by rw [← ht]; rfl)
    rw [List.dropWhile_cons, if_neg (by simp [hc])]

/-- Stripping is idempotent. -/
theorem stripAll_idem (s : Str) : pyStripAll (pyStripAll s) = pyStripAll s := by
  conv_lhs => rw [pyStripAll, stripAll_dropWhile, pyRstrip_eq_rdropWhile]
  rw [pyStripAll, pyRstrip_eq_rdropWhile]
  exact List.rdropWhile_idempotent _ _

/-- Membership in an append-accumulating fold. -/
theorem mem_foldl_append {α β : Type} (f : β → List α) (l : List β) (acc : List α) (x : α) :
    x ∈ l.foldl (fun a m => a ++ f m) acc ↔ x ∈ acc ∨ ∃ m ∈ l, x ∈ f m := by
  induction l generalizing acc with
  | nil => simp
  | cons b rest ih => simp [ih, or_assoc]

theorem mem_uniqueAux (l : List Str) (seen : List Str) (x : Str) :
    x ∈ uniqueAux seen l ↔ x ∈ l ∧ x ∉ seen := by
  induction l generalizing seen with
  | nil => simp [uniqueAux]
  | cons t rest ih =>
    by_cases h : t ∈ seen
    · rw [uniqueAux, if_pos h, ih]
      constructor
      · rintro ⟨h1, h2⟩
        exact ⟨List.mem_cons_of_mem _ h1, h2⟩
      · rintro ⟨h1, h2⟩
        rcases List.mem_cons.mp h1 with rfl | h1
        · exact absurd h h2
        · exact ⟨h1, h2⟩
    · rw [uniqueAux, if_neg h]
      constructor
      · intro hx
        rcases List.mem_cons.mp hx with rfl | hx
        · exact ⟨List.mem_cons_self _ _, h⟩
        · obtain ⟨h1, h2⟩ := (ih _).mp hx
          exact ⟨List.mem_cons_of_mem _ h1, fun hs => h2 (List.mem_cons_of_mem _ hs)⟩
      · rintro ⟨h1, h2⟩
        rcases List.mem_cons.mp h1 with rfl | h1
        · exact List.mem_cons_self _ _
        · by_cases hxt : x = t
          · subst hxt
            exact List.mem_cons_self _ _
          · exact List.mem_cons_of_mem _
              ((ih _).mpr ⟨h1, fun hs => (List.mem_cons.mp hs).elim hxt h2⟩)

theorem uniqueAux_nodup (l : List Str) (seen : List Str) : (uniqueAux seen l).Nodup := by
  induction l generalizing seen with
  | nil => simp [uniqueAux]
  | cons t rest ih =>
    by_cases h : t ∈ seen
    · rw [uniqueAux, if_pos h]
      exact ih _
    · rw [uniqueAux, if_neg h]
      exact List.nodup_cons.mpr
        ⟨fun hmem => ((mem_uniqueAux _ _ _).mp hmem).2 (List.mem_cons_self _ _), ih _⟩

theorem uniqueAux_sublist (l : List Str) (seen : List Str) : (uniqueAux seen l).Sublist l := by
  induction l generalizing seen with
  | nil => simp [uniqueAux]
  | cons t rest ih =>
    by_cases h : t ∈ seen
    · rw [uniqueAux, if_pos h]
      exact (ih _).trans (List.sublist_cons_self _ _)
    · rw [uniqueAux, if_neg h]
      exact (ih _).cons₂ _

/-- Every alias produced by `_extract_aliases` is non-empty and fully
trimmed. -/
theorem mem_extract_aliases {content s : Str} (hs : s ∈ _extract_aliases content) :
    s ≠ [] ∧ pyStripAll s = s := by
  unfold _extract_aliases at hs
  rw [mem_foldl_append] at hs
  rcases hs with hs | ⟨m, _, hx⟩
  · cases hs
  · rw [List.mem_filter] at hx
    obtain ⟨hmap, hne⟩ := hx
    obtain ⟨a, _, ha⟩ := List.mem_map.mp hmap
    refine ⟨by simpa using hne, ?_⟩
    rw [← ha, stripAll_idem]

/-- Claim C3 (amended): `_extract_aliases` returns the alias parts of
every `Aliases::` line (case-insensitive key), split on commas, trimmed,
with empty parts discarded, in encounter order — but it does *not*
remove cross-line duplicates; first-occurrence deduplication is
performed afterwards by `_unique_terms`, which returns a duplicate-free
subsequence of its input containing every alias. -/
theorem C3_alias_pipeline (content : Str) (s : Str) (hs : s ∈ _extract_aliases content) :
    s ≠ [] ∧ pyStripAll s = s ∧
      (_unique_terms (_extract_aliases content)).Nodup ∧
      (_unique_terms (_extract_aliases content)).Sublist (_extract_aliases content) ∧
      s ∈ _unique_terms (_extract_aliases content) := by
  obtain ⟨h1, h2⟩ := mem_extract_aliases hs
  refine ⟨h1, h2, uniqueAux_nodup _ _, uniqueAux_sublist _ _, ?_⟩
  exact (mem_uniqueAux _ _ _).mpr ⟨hs, by simp⟩

/-- Claim C3 witness: instantiation at a concrete document declaring
`Aliases:: b, a, b`. -/
theorem C3_alias_pipeline_witness :
    lit "a" ≠ [] ∧ pyStripAll (lit "a") = lit "a" ∧
      (_unique_terms (_extract_aliases (lit "- Aliases:: b, a, b"))).Nodup ∧
      (_unique_terms (_extract_aliases (lit "- Aliases:: b, a, b"))).Sublist
        (_extract_aliases (lit "- Aliases:: b, a, b")) ∧
      lit "a" ∈ _unique_terms (_extract_aliases (lit "- Aliases:: b, a, b")) :=
  C3_alias_pipeline (lit "- Aliases:: b, a, b") (lit "a") (by decide)

/-- Claim C3 counterexample: `_extract_aliases` itself does not remove
cross-line duplicates — two `Aliases::` lines declaring the same alias
yield it twice. -/
theorem C3_counterexample :
    _extract_aliases (lit "- Aliases:: a\n- Aliases:: a") = [lit "a", lit "a"] ∧
      ¬ (_extract_aliases (lit "- Aliases:: a\n- Aliases:: a")).Nodup := by
  decide

/-! ### Lemmas for the unlinked-references renderer (claim C10) -/

theorem ddAppend_ne_nil {α : Type} (d : List (Str × List α)) (k : Str) (v : α) :
    ddAppend d k v ≠ [] := by
  cases d with
  | nil => simp [ddAppend]
  | cons p rest =>
    obtain ⟨k0, vs⟩ := p
    by_cases h : k0 = k <;> simp [ddAppend, h]

theorem foldl_ddAppend_ne_nil {α β : Type} (key : β → Str) (val : β → α) (l : List β)
    (acc : List (Str × List α)) (h : acc ≠ []) :
    l.foldl (fun a e => ddAppend a (key e) (val e)) acc ≠ [] := by
  induction l generalizing acc with
  | nil => exact h
  | cons e rest ih => exact ih _ (ddAppend_ne_nil _ _ _)

theorem groupByTerm_ne_nil {ul : List (Str × Str × RMatch)} (h : ul ≠ []) :
    groupByTerm ul ≠ [] := by
  cases ul with
  | nil => exact absurd rfl h
  | cons e rest =>
    exact foldl_ddAppend_ne_nil (fun e => e.2.1) (fun e => (e.1, e.2.2)) rest _
      (ddAppend_ne_nil _ _ _)

/-- Values stored by `ddAppend` are never the empty list. -/
theorem ddAppend_values_ne_nil {α : Type} {d : List (Str × List α)} (k : Str) (v : α)
    (hd : ∀ p ∈ d, p.2 ≠ []) : ∀ p ∈ ddAppend d k v, p.2 ≠ [] := by
  induction d with
  | nil =>
    intro p hp
    rw [ddAppend] at hp
    rcases List.mem_singleton.mp hp with rfl
    simp
  | cons q rest ih =>
    obtain ⟨k0, vs⟩ := q
    intro p hp
    rw [ddAppend] at hp
    by_cases h : k0 = k
    · rw [if_pos h] at hp
      rcases List.mem_cons.mp hp with rfl | hp
      · simp
      · exact hd p (List.mem_cons_of_mem _ hp)
    · rw [if_neg h] at hp
      rcases List.mem_cons.mp hp with rfl | hp
      · exact hd _ (List.mem_cons_self _ _)
      · exact ih (fun q hq => hd q (List.mem_cons_of_mem _ hq)) p hp

theorem groupByTerm_values_ne_nil (ul : List (Str × Str × RMatch)) :
    ∀ p ∈ groupByTerm ul, p.2 ≠ [] := by
  have main : ∀ (l : List (Str × Str × RMatch)) (acc : List (Str × List (Str × RMatch))),
      (∀ p ∈ acc, p.2 ≠ []) →
      ∀ p ∈ l.foldl (fun a e => ddAppend a e.2.1 (e.1, e.2.2)) acc, p.2 ≠ [] := by
    intro l
    induction l with
    | nil => exact fun acc h => h
    | cons e rest ih => exact fun acc h => ih _ (ddAppend_values_ne_nil _ _ h)
  exact main ul [] (by simp)

theorem mem_sInsert {α : Type} (le : α → α → Bool) (a x : α) (l : List α) :
    x ∈ sInsert le a l ↔ x = a ∨ x ∈ l := by
  induction l with
  | nil => simp [sInsert]
  | cons y ys ih =>
    rw [sInsert]
    by_cases h : le a y
    · simp [h]
    · simp only [if_neg h, List.mem_cons, ih]
      tauto

theorem mem_ssort {α : Type} (le : α → α → Bool) (x : α) (l : List α) :
    x ∈ ssort le l ↔ x ∈ l := by
  induction l with
  | nil => simp [ssort]
  | cons y ys ih => rw [ssort, mem_sInsert, ih, List.mem_cons]

theorem ssort_ne_nil {α : Type} (le : α → α → Bool) {l : List α} (h : l ≠ []) :
    ssort le l ≠ [] := by
  cases l with
  | nil => exact absurd rfl h
  | cons y ys =>
    rw [ssort]
    cases hs : ssort le ys with
    | nil => simp [sInsert]
    | cons z zs =>
      rw [sInsert]
      by_cases hle : le y z <;> simp [hle]

/-- The first entry of a term group, rendered with an empty `seen` set,
is never deduplicated away. -/
theorem renderUnlinkedEntries_pos (es : List (Str × RMatch)) (h : es ≠ []) :
    1 ≤ (renderUnlinkedEntries none [] es).2 := by
  cases es with
  | nil => exact absurd rfl h
  | cons p rest =>
    obtain ⟨sf, m⟩ := p
    simp only [renderUnlinkedEntries, List.not_mem_nil, if_false, if_neg (by simp : ¬False)]
    omega

theorem renderUnlinkedGroups_pos (term : Str) (entries : List (Str × RMatch))
    (rest : List (Str × List (Str × RMatch))) (h : entries ≠ []) :
    1 ≤ (renderUnlinkedGroups ((term, entries) :: rest)).2 := by
  have h1 := renderUnlinkedEntries_pos (ssort pairKeyLe entries) (ssort_ne_nil _ h)
  simp only [renderUnlinkedGroups]
  omega

/-- Claim C10: for every non-empty unlinked-mention entry list,
`add_unlinked_links` always emits at least one context block — the
first entry of the first term group cannot be deduplicated away because
`seen_blocks` starts empty — so the `display_count == 0` early return is
never taken, the section is always appended, and its header count is at
least 1. -/
theorem C10_unlinked_section_emitted (content : Str) (ul : List (Str × Str × RMatch))
    (h : ul ≠ []) :
    1 ≤ (unlinkedRendered ul).2 ∧
      add_unlinked_links content ul =
        content ++ lit "\n# Unlinked references (" ++ natToStr (unlinkedRendered ul).2 ++
          lit ")\n" ++ joinNl (unlinkedRendered ul).1 ++ lit "\n" := by
  have hg : groupByTerm ul ≠ [] := groupByTerm_ne_nil h
  have hcount : 1 ≤ (unlinkedRendered ul).2 := by
    rw [unlinkedRendered]
    cases hss : ssort (fun a b => strLtB a.1 b.1 || decide (a.1 = b.1)) (groupByTerm ul) with
    | nil => exact absurd hss (ssort_ne_nil _ hg)
    | cons g rest =>
      obtain ⟨term, entries⟩ := g
      have hmem : (term, entries) ∈ groupByTerm ul := by
        have : (term, entries) ∈
            ssort (fun a b => strLtB a.1 b.1 || decide (a.1 = b.1)) (groupByTerm ul) := by
          rw [hss]
          exact List.mem_cons_self _ _
        exact (mem_ssort _ _ _).mp this
      exact renderUnlinkedGroups_pos term entries rest (groupByTerm_values_ne_nil ul _ hmem)
  refine ⟨hcount, ?_⟩
  rw [add_unlinked_links, if_neg h, if_neg (by omega)]

/-- Claim C10 witness: a one-entry list produces the section with count 1. -/
theorem C10_unlinked_section_emitted_witness :
    1 ≤ (unlinkedRendered [(lit "A.md", lit "T", ⟨lit "T", 0, 1, lit "T"⟩)]).2 ∧
      add_unlinked_links (lit "C") [(lit "A.md", lit "T", ⟨lit "T", 0, 1, lit "T"⟩)] =
        lit "C" ++ lit "\n# Unlinked references (" ++
          natToStr (unlinkedRendered [(lit "A.md", lit "T", ⟨lit "T", 0, 1, lit "T"⟩)]).2 ++
          lit ")\n" ++
          joinNl (unlinkedRendered [(lit "A.md", lit "T", ⟨lit "T", 0, 1, lit "T"⟩)]).1 ++
          lit "\n" :=
  C10_unlinked_section_emitted (lit "C") [(lit "A.md", lit "T", ⟨lit "T", 0, 1, lit "T"⟩)]
    (by decide)

/-! ### Lemmas for the mention scanner (claim C6) -/

/-- For span lists sorted by start offset, the early-exit scan of
`_find_mentions_outside_links` decides exactly "some span satisfies
`start ≤ pos < end`". -/
theorem insideScan_eq_any (spans : List (Nat × Nat)) (pos : Nat)
    (hs : spans.Pairwise (fun a b => a.1 ≤ b.1)) :
    insideScan spans pos =
      spans.any (fun sp => decide (sp.1 ≤ pos) && decide (pos < sp.2)) := by
  induction spans with
  | nil => rfl
  | cons sp rest ih =>
    obtain ⟨s, e⟩ := sp
    obtain ⟨hhead, htail⟩ := List.pairwise_cons.mp hs
    rw [insideScan, List.any_cons]
    by_cases h1 : s ≤ pos ∧ pos < e
    · rw [if_pos h1]
      simp [h1.1, h1.2]
    · rw [if_neg h1]
      by_cases h2 : pos < s
      · rw [if_pos h2]
        have hall : rest.any (fun sp => decide (sp.1 ≤ pos) && decide (pos < sp.2)) = false := by
          rw [List.any_eq_false]
          intro q hq
          have hq1 := hhead q hq
          simp only [Bool.and_eq_true, decide_eq_true_eq, not_and]
          intro hle
          omega
        rw [hall, Bool.or_false]
        have hsd : decide (s ≤ pos) = false := by
          simp only [decide_eq_false_iff_not]
          omega
        rw [hsd, Bool.false_and]
      · rw [if_neg h2, ih htail]
        have : (decide (s ≤ pos) && decide (pos < e)) = false := by
          simp only [Bool.and_eq_false_iff, decide_eq_false_iff_not]
          by_cases hsp : s ≤ pos
          · right
            intro hlt
            exact h1 ⟨hsp, hlt⟩
          · left
            exact hsp
        rw [this, Bool.false_or]

/-- Claim C6: for a non-empty term and span lists sorted by start, the
mention scanner returns exactly the literal non-overlapping occurrences
of the term whose start offset lies outside every Reference span and
every URL span, "inside" meaning some span satisfies
`start ≤ pos < end`; for the empty term it returns the empty list. -/
theorem C6_mentions_outside_spans (text term : Str) (ls us : List (Nat × Nat))
    (hterm : term ≠ [])
    (hls : ls.Pairwise (fun a b => a.1 ≤ b.1)) (hus : us.Pairwise (fun a b => a.1 ≤ b.1)) :
    _find_mentions_outside_links text term ls us =
      (litFinditer term text).filter
        (fun m =>
          !(ls.any (fun sp => decide (sp.1 ≤ m.mstart) && decide (m.mstart < sp.2))) &&
          !(us.any (fun sp => decide (sp.1 ≤ m.mstart) && decide (m.mstart < sp.2)))) ∧
      _find_mentions_outside_links text [] ls us = [] := by
  constructor
  · rw [_find_mentions_outside_links, if_neg hterm]
    apply List.filter_congr
    intro m _
    rw [insideScan_eq_any ls _ hls, insideScan_eq_any us _ hus]
    rw [Bool.not_or]
  · rfl

/-- Claim C6 witness: one link span and one URL span suppress two of the
four occurrences of `"ab"`. -/
theorem C6_mentions_outside_spans_witness :
    _find_mentions_outside_links (lit "ab ab ab ab") (lit "ab") [(0, 2)] [(6, 8)] =
      (litFinditer (lit "ab") (lit "ab ab ab ab")).filter
        (fun m =>
          !([((0 : Nat), (2 : Nat))].any
            (fun sp => decide (sp.1 ≤ m.mstart) && decide (m.mstart < sp.2))) &&
          !([((6 : Nat), (8 : Nat))].any
            (fun sp => decide (sp.1 ≤ m.mstart) && decide (m.mstart < sp.2)))) ∧
      _find_mentions_outside_links (lit "ab ab ab ab") [] [(0, 2)] [(6, 8)] = [] :=
  C6_mentions_outside_spans (lit "ab ab ab ab") (lit "ab") [(0, 2)] [(6, 8)]
    (by decide) (by decide) (by decide)

/-! ### Lemmas for the attribute-key capture (claim C7) -/

/-- The head of a well-formed key is not a newline. -/
theorem keyOk_head_ne_nl {c : Char} {k : Str} (h : keyOk (c :: k) = true) : c ≠ '\n' := by
  cases k <;> simp only [keyOk, Bool.and_eq_true, bne_iff_ne] at h <;> tauto

/-- One step of the key run on an ordinary character. -/
theorem attrKeyRun_cons_ne (c : Char) (u : Str) (hu : u ≠ []) (hnl : c ≠ '\n')
    (hco : c ≠ ':') : attrKeyRun (c :: u) = 1 + attrKeyRun u := by
  cases u with
  | nil => exact absurd rfl hu
  | cons c2 k2 => simp [attrKeyRun, hnl, hco]

/-- One step of the key run on a colon followed by an ordinary character. -/
theorem attrKeyRun_colon (c2 : Char) (u : Str) (hc2 : c2 ≠ ':') (hc2nl : c2 ≠ '\n') :
    attrKeyRun (':' :: c2 :: u) = 2 + attrKeyRun u := by
  simp [attrKeyRun, hc2, hc2nl]

/-- A well-formed key is consumed in full by the greedy key run, which
then stops exactly at the terminating `"::"`. -/
theorem attrKeyRun_append (key rest : Str) (hok : keyOk key = true) :
    attrKeyRun (key ++ ':' :: ':' :: rest) = key.length := by
  induction key with
  | nil => simp [attrKeyRun]
  | cons c k ih =>
    cases k with
    | nil =>
      simp only [keyOk, Bool.and_eq_true, bne_iff_ne] at hok
      obtain ⟨hnl, hco⟩ := hok
      rw [List.cons_append, List.nil_append, attrKeyRun]
      simp [hnl, hco, attrKeyRun]
    | cons c2 k2 =>
      simp only [keyOk, Bool.and_eq_true, bne_iff_ne, Bool.or_eq_true] at hok
      obtain ⟨⟨hnl, hor⟩, htail⟩ := hok
      have hih := ih (by simpa [keyOk] using htail)
      by_cases hco : c = ':'
      · have hc2 : c2 ≠ ':' := by
          rcases hor with h | h
          · exact absurd hco h
          · exact h
        have hc2nl : c2 ≠ '\n' := keyOk_head_ne_nl (by simpa [keyOk] using htail)
        subst hco
        have step : attrKeyRun ((':' :: c2 :: k2) ++ ':' :: ':' :: rest) =
            2 + attrKeyRun (k2 ++ ':' :: ':' :: rest) := by
          rw [List.cons_append, List.cons_append]
          exact attrKeyRun_colon c2 _ hc2 hc2nl
        have step2 : attrKeyRun ((c2 :: k2) ++ ':' :: ':' :: rest) =
            1 + attrKeyRun (k2 ++ ':' :: ':' :: rest) := by
          rw [List.cons_append]
          exact attrKeyRun_cons_ne c2 _ (by simp) hc2nl hc2
        rw [step2] at hih
        rw [step]
        simp only [List.length_cons] at hih ⊢
        omega
      · have step : attrKeyRun ((c :: c2 :: k2) ++ ':' :: ':' :: rest) =
            1 + attrKeyRun ((c2 :: k2) ++ ':' :: ':' :: rest) := by
          rw [List.cons_append]
          exact attrKeyRun_cons_ne c _ (by simp) hnl hco
        rw [step, hih]
        simp only [List.length_cons]
        omega

theorem keyOk_no_nl {key : Str} (hok : keyOk key = true) : '\n' ∉ key := by
  induction key with
  | nil => simp
  | cons c k ih =>
    have hnl : c ≠ '\n' := keyOk_head_ne_nl hok
    simp only [List.mem_cons, not_or]
    refine ⟨fun h => hnl h.symm, ?_⟩
    cases k with
    | nil => simp
    | cons c2 k2 =>
      simp only [keyOk, Bool.and_eq_true, bne_iff_ne, Bool.or_eq_true] at hok
      exact ih (by simpa [keyOk] using hok.2)

/-- In a newline-free text, the attribute matcher of `extract_links`
cannot fire at any position past 0. -/
theorem attrExtract_none_of_no_nl {t : Str} (hnl : '\n' ∉ t) {i : Nat} (hi : 1 ≤ i) :
    attrExtractMatchAt t i = none := by
  rw [attrExtractMatchAt, if_neg (by omega)]
  rw [if_neg ?_]
  intro hc
  have hm : '\n' ∈ (t.drop i).take 1 := by
    rw [hc]
    exact List.mem_singleton_self '\n'
  exact hnl (List.mem_of_mem_drop (List.mem_of_mem_take hm))

theorem finditer_nil_of_none {α : Type} (mAt : Str → Nat → Option (Nat × α)) (t : Str)
    (fuel i : Nat) (h : ∀ j, i ≤ j → mAt t j = none) : finditerFuel mAt t fuel i = [] := by
  induction fuel generalizing i with
  | zero => rfl
  | succ f ih =>
    rw [finditerFuel]
    by_cases hlt : i < t.length
    · rw [if_pos hlt, h i le_rfl]
      exact ih (i + 1) (fun j hj => h j (by omega))
    · rw [if_neg hlt]

theorem finditer_single {α : Type} (mAt : Str → Nat → Option (Nat × α)) (t : Str)
    (e : Nat) (a : α) (h0 : mAt t 0 = some (e, a)) (hpast : ∀ j, 1 ≤ j → mAt t j = none)
    (hlen : 0 < t.length) : finditerFuel mAt t t.length 0 = [(0, e, a)] := by
  obtain ⟨n, hn⟩ := Nat.exists_eq_succ_of_ne_zero (Nat.pos_iff_ne_zero.mp hlen)
  rw [hn, finditerFuel, if_pos (by omega), h0]
  show (0, e, a) :: finditerFuel mAt t n (max e (0 + 1)) = [(0, e, a)]
  rw [finditer_nil_of_none mAt t n (max e (0 + 1))
    (fun j hj => hpast j (le_trans (le_max_right e (0 + 1)) hj))]

/-- The attribute body matcher at position 0 of `"- " ++ key ++ "::" ++ rest`
captures exactly `key`. -/
theorem attrBodyAt_capture (key rest : Str) (hne : key ≠ []) (hok : keyOk key = true) :
    attrBodyAt ('-' :: ' ' :: (key ++ ':' :: ':' :: rest)) 0 = some (key.length + 4, key) := by
  have hlen : 0 < key.length := List.length_pos.mpr hne
  have htw : List.takeWhile (fun c => c == ' ')
      (List.drop 0 ('-' :: ' ' :: (key ++ ':' :: ':' :: rest))) = [] := rfl
  rw [attrBodyAt, htw]
  simp only [List.length_nil, Nat.add_zero, Nat.zero_add, List.drop_zero]
  rw [if_pos (show List.take 2 ('-' :: ' ' :: (key ++ ':' :: ':' :: rest)) = lit "- " from rfl)]
  have hd : List.drop 2 ('-' :: ' ' :: (key ++ ':' :: ':' :: rest)) =
      key ++ ':' :: ':' :: rest := rfl
  rw [hd, attrKeyRun_append key rest hok, List.take_left]
  have hdrop2 : List.drop (2 + key.length) ('-' :: ' ' :: (key ++ ':' :: ':' :: rest)) =
      ':' :: ':' :: rest := by
    rw [← List.drop_drop]
    exact List.drop_left key _
  rw [hdrop2]
  rw [if_pos ⟨hlen, rfl⟩]
  have h4 : 2 + key.length + 2 = key.length + 4 := by omega
  rw [h4]

/-- Claim C7: in an attribute line `- key:: value:: other`, the Link
Extractor captures exactly `key` — the prefix up to the *first* double
colon (single colons may occur inside the key, the key is non-empty,
newline-free, `"::"`-free and does not end in a colon) — and
`format_link("  - attrib:is:: string")` returns
`"  - **[attrib:is](<attrib:is.md>):** string"`. -/
theorem C7_attr_key_capture (key rest : Str) (hne : key ≠ []) (hok : keyOk key = true)
    (hrest : '\n' ∉ rest) :
    matchesOf attrExtractMatchAt ('-' :: ' ' :: (key ++ ':' :: ':' :: rest)) =
      [⟨'-' :: ' ' :: (key ++ ':' :: ':' :: rest), 0, key.length + 4, key⟩] ∧
      (extract_links (lit "- key:: value:: other")).map RMatch.group1 = [lit "key"] ∧
      format_link (lit "  - attrib:is:: string") [] =
        lit "  - **[attrib:is](<attrib:is.md>):** string" := by
  refine ⟨?_, by decide, by decide⟩
  have hNoNl : '\n' ∉ ('-' :: ' ' :: (key ++ ':' :: ':' :: rest)) := by
    intro hmem
    rcases List.mem_cons.mp hmem with h | hmem2
    · exact absurd h (by decide)
    rcases List.mem_cons.mp hmem2 with h | hmem3
    · exact absurd h (by decide)
    rcases List.mem_append.mp hmem3 with h | hmem4
    · exact keyOk_no_nl hok h
    rcases List.mem_cons.mp hmem4 with h | hmem5
    · exact absurd h (by decide)
    rcases List.mem_cons.mp hmem5 with h | h
    · exact absurd h (by decide)
    · exact hrest h
  have hmat0 : attrExtractMatchAt ('-' :: ' ' :: (key ++ ':' :: ':' :: rest)) 0 =
      some (key.length + 4, key) := by
    rw [attrExtractMatchAt, if_pos rfl, attrBodyAt_capture key rest hne hok]
  have hsingle := finditer_single attrExtractMatchAt
    ('-' :: ' ' :: (key ++ ':' :: ':' :: rest)) (key.length + 4) key hmat0
    (fun j hj => attrExtract_none_of_no_nl hNoNl hj) (by simp)
  rw [matchesOf, hsingle]
  rfl

/-- Claim C7 witness: instantiation at the key `"a:b"` (which contains a
single colon) and the tail `" v w"`. -/
theorem C7_attr_key_capture_witness :
    matchesOf attrExtractMatchAt ('-' :: ' ' :: (lit "a:b" ++ ':' :: ':' :: lit " v w")) =
      [⟨'-' :: ' ' :: (lit "a:b" ++ ':' :: ':' :: lit " v w"), 0, (lit "a:b").length + 4,
        lit "a:b"⟩] ∧
      (extract_links (lit "- key:: value:: other")).map RMatch.group1 = [lit "key"] ∧
      format_link (lit "  - attrib:is:: string") [] =
        lit "  - **[attrib:is](<attrib:is.md>):** string" :=
  C7_attr_key_capture (lit "a:b") (lit " v w") (by decide) (by decide) (by decide)

/-! ### Step equations of the child scan (claims C4 and C5) -/

theorem scanChildren_nil (base : Nat) (fci sci : Option Nat) :
    scanChildren base [] fci sci = ([], fci, sci) := rfl

theorem scanChildren_blank (base : Nat) (line : Str) (rest : List Str) (fci sci : Option Nat)
    (hb : isBlank line = true) :
    scanChildren base (line :: rest) fci sci =
      (line :: (scanChildren base rest fci sci).1, (scanChildren base rest fci sci).2) := by
  rw [scanChildren]
  simp [hb]

theorem scanChildren_break_base (base : Nat) (line : Str) (rest : List Str)
    (fci sci : Option Nat) (hb : isBlank line = false) (h1 : indentOf line ≤ base) :
    scanChildren base (line :: rest) fci sci = ([], fci, sci) := by
  rw [scanChildren]
  simp [hb, h1]

theorem scanChildren_break_fci (base : Nat) (line : Str) (rest : List Str) (f : Nat)
    (sci : Option Nat) (hb : isBlank line = false) (h1 : ¬indentOf line ≤ base)
    (h2 : indentOf line < f) :
    scanChildren base (line :: rest) (some f) sci = ([], some f, sci) := by
  rw [scanChildren]
  simp [hb, h1, h2]

theorem scanChildren_break_sci (base : Nat) (line : Str) (rest : List Str) (f s : Nat)
    (hb : isBlank line = false) (h1 : ¬indentOf line ≤ base) (h2 : ¬indentOf line < f)
    (h3 : s < indentOf line) :
    scanChildren base (line :: rest) (some f) (some s) = ([], some f, some s) := by
  rw [scanChildren]
  simp [hb, h1, h2, h3]

theorem scanChildren_keep_full (base : Nat) (line : Str) (rest : List Str) (f s : Nat)
    (hb : isBlank line = false) (h1 : ¬indentOf line ≤ base) (h2 : ¬indentOf line < f)
    (h3 : ¬s < indentOf line) :
    scanChildren base (line :: rest) (some f) (some s) =
      (line :: (scanChildren base rest (some f) (some s)).1,
        (scanChildren base rest (some f) (some s)).2) := by
  rw [scanChildren]
  simp [hb, h1, h2, h3]

theorem scanChildren_keep_set_sci (base : Nat) (line : Str) (rest : List Str) (f : Nat)
    (hb : isBlank line = false) (h1 : ¬indentOf line ≤ base) (h2 : f < indentOf line) :
    scanChildren base (line :: rest) (some f) none =
      (line :: (scanChildren base rest (some f) (some (indentOf line))).1,
        (scanChildren base rest (some f) (some (indentOf line))).2) := by
  rw [scanChildren]
  simp [hb, h1, h2, (by omega : ¬indentOf line < f),
    (by omega : ¬indentOf line < indentOf line)]
  omega

theorem scanChildren_keep_eq_fci (base : Nat) (line : Str) (rest : List Str) (f : Nat)
    (hb : isBlank line = false) (h1 : ¬indentOf line ≤ base) (h2 : ¬indentOf line < f)
    (h3 : ¬f < indentOf line) :
    scanChildren base (line :: rest) (some f) none =
      (line :: (scanChildren base rest (some f) none).1,
        (scanChildren base rest (some f) none).2) := by
  rw [scanChildren]
  simp [hb, h1, h2, h3]

theorem scanChildren_keep_first (base : Nat) (line : Str) (rest : List Str)
    (hb : isBlank line = false) (h1 : ¬indentOf line ≤ base) :
    scanChildren base (line :: rest) none none =
      (line :: (scanChildren base rest (some (indentOf line)) none).1,
        (scanChildren base rest (some (indentOf line)) none).2) := by
  rw [scanChildren]
  simp [hb, h1]

theorem scanChildren_break_first_sci (base : Nat) (line : Str) (rest : List Str) (s : Nat)
    (hb : isBlank line = false) (h1 : ¬indentOf line ≤ base) (h3 : s < indentOf line) :
    scanChildren base (line :: rest) none (some s) = ([], some (indentOf line), some s) := by
  rw [scanChildren]
  simp [hb, h1, h3]

theorem scanChildren_keep_first_sci (base : Nat) (line : Str) (rest : List Str) (s : Nat)
    (hb : isBlank line = false) (h1 : ¬indentOf line ≤ base) (h3 : ¬s < indentOf line) :
    scanChildren base (line :: rest) none (some s) =
      (line :: (scanChildren base rest (some (indentOf line)) (some s)).1,
        (scanChildren base rest (some (indentOf line)) (some s)).2) := by
  rw [scanChildren]
  simp [hb, h1, h3]

/-! ### Invariants of the child scan (claim C4) -/

/-- With both thresholds fixed, the scan never changes state and keeps
only non-blank lines with indent above the base and at most the
second-child threshold. -/
theorem scan_sci_some (base : Nat) (lines : List Str) (f s : Nat) :
    (scanChildren base lines (some f) (some s)).2 = (some f, some s) ∧
    ∀ l ∈ (scanChildren base lines (some f) (some s)).1, isBlank l = false →
      base < indentOf l ∧ indentOf l ≤ s := by
  induction lines with
  | nil => exact ⟨rfl, by simp [scanChildren_nil]⟩
  | cons line rest ih =>
    by_cases hb : isBlank line = true
    · rw [scanChildren_blank _ _ _ _ _ hb]
      refine ⟨ih.1, fun l hl hnb => ?_⟩
      rcases List.mem_cons.mp hl with rfl | hl
      · exact absurd (hb.symm.trans hnb) (by decide)
      · exact ih.2 l hl hnb
    · simp only [Bool.not_eq_true] at hb
      by_cases h1 : indentOf line ≤ base
      · rw [scanChildren_break_base _ _ _ _ _ hb h1]
        exact ⟨rfl, by simp⟩
      · by_cases h2 : indentOf line < f
        · rw [scanChildren_break_fci _ _ _ _ _ hb h1 h2]
          exact ⟨rfl, by simp⟩
        · by_cases h3 : s < indentOf line
          · rw [scanChildren_break_sci _ _ _ _ _ hb h1 h2 h3]
            exact ⟨rfl, by simp⟩
          · rw [scanChildren_keep_full _ _ _ _ _ hb h1 h2 h3]
            refine ⟨ih.1, fun l hl hnb => ?_⟩
            rcases List.mem_cons.mp hl with rfl | hl
            · exact ⟨by omega, by omega⟩
            · exact ih.2 l hl hnb

/-- With the first threshold fixed and the second unset: the first-child
state survives, a second-child threshold is only ever set strictly above
the first, and every kept non-blank line respects the base and the final
second-child threshold. -/
theorem scan_fci_some (base : Nat) (lines : List Str) (f : Nat) :
    (scanChildren base lines (some f) none).2.1 = some f ∧
    (∀ s, (scanChildren base lines (some f) none).2.2 = some s → f < s) ∧
    ∀ l ∈ (scanChildren base lines (some f) none).1, isBlank l = false →
      base < indentOf l ∧
      ∀ s, (scanChildren base lines (some f) none).2.2 = some s → indentOf l ≤ s := by
  induction lines with
  | nil => exact ⟨rfl, by simp [scanChildren_nil], by simp [scanChildren_nil]⟩
  | cons line rest ih =>
    by_cases hb : isBlank line = true
    · rw [scanChildren_blank _ _ _ _ _ hb]
      refine ⟨ih.1, ih.2.1, fun l hl hnb => ?_⟩
      rcases List.mem_cons.mp hl with rfl | hl
      · exact absurd (hb.symm.trans hnb) (by decide)
      · exact ih.2.2 l hl hnb
    · simp only [Bool.not_eq_true] at hb
      by_cases h1 : indentOf line ≤ base
      · rw [scanChildren_break_base _ _ _ _ _ hb h1]
        exact ⟨rfl, by simp, by simp⟩
      · by_cases h2 : indentOf line < f
        · rw [scanChildren_break_fci _ _ _ _ _ hb h1 h2]
          exact ⟨rfl, by simp, by simp⟩
        · by_cases h3 : f < indentOf line
          · rw [scanChildren_keep_set_sci _ _ _ _ hb h1 h3]
            have hA := scan_sci_some base rest f (indentOf line)
            have hfst : (scanChildren base rest (some f) (some (indentOf line))).2.1 = some f :=
              congrArg Prod.fst hA.1
            have hsnd : (scanChildren base rest (some f) (some (indentOf line))).2.2 =
                some (indentOf line) := congrArg Prod.snd hA.1
            refine ⟨hfst, fun s hs => ?_, fun l hl hnb => ?_⟩
            · rw [hsnd] at hs
              cases hs
              exact h3
            · rcases List.mem_cons.mp hl with rfl | hl
              · refine ⟨by omega, fun s hs => ?_⟩
                rw [hsnd] at hs
                cases hs
                omega
              · have hbound := hA.2 l hl hnb
                refine ⟨hbound.1, fun s hs => ?_⟩
                rw [hsnd] at hs
                cases hs
                exact hbound.2
          · rw [scanChildren_keep_eq_fci _ _ _ _ hb h1 h2 h3]
            refine ⟨ih.1, ih.2.1, fun l hl hnb => ?_⟩
            rcases List.mem_cons.mp hl with rfl | hl
            · refine ⟨by omega, fun s hs => ?_⟩
              have := ih.2.1 s hs
              omega
            · exact ih.2.2 l hl hnb

/-- From the initial state: a second-child threshold is only ever set
strictly above the base, and every kept non-blank line has indent above
the base and at most the final second-child threshold. -/
theorem scan_none (base : Nat) (lines : List Str) :
    (∀ s, (scanChildren base lines none none).2.2 = some s → base < s) ∧
    ∀ l ∈ (scanChildren base lines none none).1, isBlank l = false →
      base < indentOf l ∧
      ∀ s, (scanChildren base lines none none).2.2 = some s → indentOf l ≤ s := by
  induction lines with
  | nil => exact ⟨by simp [scanChildren_nil], by simp [scanChildren_nil]⟩
  | cons line rest ih =>
    by_cases hb : isBlank line = true
    · rw [scanChildren_blank _ _ _ _ _ hb]
      refine ⟨ih.1, fun l hl hnb => ?_⟩
      rcases List.mem_cons.mp hl with rfl | hl
      · exact absurd (hb.symm.trans hnb) (by decide)
      · exact ih.2 l hl hnb
    · simp only [Bool.not_eq_true] at hb
      by_cases h1 : indentOf line ≤ base
      · rw [scanChildren_break_base _ _ _ _ _ hb h1]
        exact ⟨by simp, by simp⟩
      · rw [scanChildren_keep_first _ _ _ hb h1]
        have hF := scan_fci_some base rest (indentOf line)
        refine ⟨fun s hs => ?_, fun l hl hnb => ?_⟩
        · have := hF.2.1 s hs
          omega
        · rcases List.mem_cons.mp hl with rfl | hl
          · refine ⟨by omega, fun s hs => ?_⟩
            have := hF.2.1 s hs
            omega
          · exact hF.2.2 l hl hnb

/-- Claim C4: every non-blank child line kept in a context block has
indent strictly greater than the base line's indent, and indent at most
the second-child indent threshold whenever that threshold was set —
lines deeper than the second child level, or at or above the base line's
level, are never included. -/
theorem C4_context_block_bounds (text : Str) (start stop : Nat) (l : Str)
    (hmem : l ∈ childLinesOf text start stop) (hnb : isBlank l = false) :
    baseIndentOf text start stop < indentOf l ∧
      indentOf l ≤
        ((scanChildren (baseIndentOf text start stop) (linesAfter text (lineEndOf text stop))
          none none).2.2.getD (indentOf l)) := by
  have h := (scan_none (baseIndentOf text start stop)
    (linesAfter text (lineEndOf text stop))).2 l hmem hnb
  refine ⟨h.1, ?_⟩
  cases hs : (scanChildren (baseIndentOf text start stop)
      (linesAfter text (lineEndOf text stop)) none none).2.2 with
  | none => simp
  | some s =>
    simpa using h.2 s hs

/-- Claim C4 witness: in a four-level nest, the first child line is kept
and its indent lies between the base indent and the second-child
threshold. -/
theorem C4_context_block_bounds_witness :
    baseIndentOf (lit "- a\n  - b\n    - c\n      - d\n") 2 3 < indentOf (lit "  - b") ∧
      indentOf (lit "  - b") ≤
        ((scanChildren (baseIndentOf (lit "- a\n  - b\n    - c\n      - d\n") 2 3)
          (linesAfter (lit "- a\n  - b\n    - c\n      - d\n")
            (lineEndOf (lit "- a\n  - b\n    - c\n      - d\n") 3))
          none none).2.2.getD (indentOf (lit "  - b"))) :=
  C4_context_block_bounds (lit "- a\n  - b\n    - c\n      - d\n") 2 3 (lit "  - b")
    (by decide) (by decide)

/-! ### Split/join round trips (claim C5) -/

theorem splitSep_ne_nil (sep : Char) (t : Str) : splitSep sep t ≠ [] := by
  induction t with
  | nil => simp [splitSep]
  | cons c rest ih =>
    rw [splitSep]
    by_cases h : c == sep
    · simp [h]
    · simp only [h, Bool.false_eq_true, if_false]
      cases hs : splitSep sep rest <;> simp

theorem sep_not_mem_splitSep (sep : Char) (t : Str) : ∀ l ∈ splitSep sep t, sep ∉ l := by
  induction t with
  | nil =>
    intro l hl
    rw [splitSep] at hl
    rcases List.mem_singleton.mp hl with rfl
    simp
  | cons c rest ih =>
    intro l hl
    rw [splitSep] at hl
    by_cases h : c == sep
    · rw [if_pos h] at hl
      rcases List.mem_cons.mp hl with rfl | hl
      · simp
      · exact ih l hl
    · rw [if_neg h] at hl
      have hcs : ¬sep = c := by
        intro he
        exact h (by simp [he])
      cases hs : splitSep sep rest with
      | nil => exact absurd hs (splitSep_ne_nil sep rest)
      | cons hhd htl =>
        rw [hs] at hl
        rcases List.mem_cons.mp hl with rfl | hl
        · intro hmem
          rcases List.mem_cons.mp hmem with he | hmem
          · exact hcs he
          · exact ih hhd (by rw [hs]; exact List.mem_cons_self _ _) hmem
        · exact ih l (by rw [hs]; exact List.mem_cons_of_mem _ hl)

theorem splitSep_no_sep (sep : Char) (l : Str) (h : sep ∉ l) : splitSep sep l = [l] := by
  induction l with
  | nil => rfl
  | cons c r ih =>
    have hc : ¬(c == sep) := by
      simp only [List.mem_cons, not_or] at h
      simp [beq_iff_eq]
      exact fun he => h.1 (he ▸ rfl)
    rw [splitSep, if_neg hc, ih (fun hm => h (List.mem_cons_of_mem _ hm))]

theorem splitSep_append_sep (sep : Char) (a w : Str) (ha : sep ∉ a) :
    splitSep sep (a ++ sep :: w) = a :: splitSep sep w := by
  induction a with
  | nil =>
    rw [List.nil_append, splitSep, if_pos (by simp)]
  | cons c r ih =>
    have hc : ¬(c == sep) := by
      simp only [List.mem_cons, not_or] at ha
      simp [beq_iff_eq]
      exact fun he => ha.1 (he ▸ rfl)
    rw [List.cons_append, splitSep, if_neg hc,
      ih (fun hm => ha (List.mem_cons_of_mem _ hm))]

theorem splitNl_joinNl (L : List Str) (hne : L ≠ []) (hnl : ∀ l ∈ L, '\n' ∉ l) :
    splitNl (joinNl L) = L := by
  induction L with
  | nil => exact absurd rfl hne
  | cons l L' ih =>
    cases L' with
    | nil => exact splitSep_no_sep '\n' l (hnl l (List.mem_cons_self _ _))
    | cons m M =>
      have hstep : joinNl (l :: m :: M) = l ++ '\n' :: joinNl (m :: M) := rfl
      rw [splitNl, hstep, splitSep_append_sep '\n' l _ (hnl l (List.mem_cons_self _ _))]
      rw [show splitSep '\n' (joinNl (m :: M)) = splitNl (joinNl (m :: M)) from rfl]
      rw [ih (by simp) (fun x hx => hnl x (List.mem_cons_of_mem _ hx))]

theorem joinNl_append_last (L : List Str) (c : Str) (h : L ≠ []) :
    joinNl (L ++ [c]) = joinNl L ++ '\n' :: c := by
  induction L with
  | nil => exact absurd rfl h
  | cons l L' ih =>
    cases L' with
    | nil => rfl
    | cons m M =>
      have h1 : joinNl ((l :: m :: M) ++ [c]) = l ++ '\n' :: joinNl ((m :: M) ++ [c]) := rfl
      rw [h1, ih (by simp)]
      simp [joinNl]

theorem joinNl_ne_nil_of_last (L : List Str) (h : L ≠ []) (hl : L.getLast h ≠ []) :
    joinNl L ≠ [] := by
  cases L with
  | nil => exact absurd rfl h
  | cons l L' =>
    cases L' with
    | nil => simpa [joinNl] using hl
    | cons m M =>
      rw [show joinNl (l :: m :: M) = l ++ '\n' :: joinNl (m :: M) from rfl]
      simp

theorem getLast?_joinNl (L : List Str) (h : L ≠ []) (hl : L.getLast h ≠ []) :
    (joinNl L).getLast? = (L.getLast h).getLast? := by
  induction L with
  | nil => exact absurd rfl h
  | cons l L' ih =>
    cases L' with
    | nil => rfl
    | cons m M =>
      have hlast : (l :: m :: M).getLast h = (m :: M).getLast (by simp) :=
        List.getLast_cons (by simp)
      have hl2 : (m :: M).getLast (by simp) ≠ [] := by
        rw [← hlast]
        exact hl
      rw [show joinNl (l :: m :: M) = l ++ '\n' :: joinNl (m :: M) from rfl]
      rw [List.getLast?_append_of_ne_nil l (by simp)]
      rw [show ('\n' :: joinNl (m :: M) : Str) = ['\n'] ++ joinNl (m :: M) from rfl]
      rw [List.getLast?_append_of_ne_nil ['\n']
        (joinNl_ne_nil_of_last (m :: M) (by simp) hl2)]
      rw [ih (by simp) hl2, hlast]

/-! ### Facts about stripping and indentation (claim C5) -/

theorem rstripNl_eq_rdropWhile (s : Str) : rstripNl s = List.rdropWhile (fun c => c == '\n') s :=
  rfl

/-- Strip trailing newlines from a join: exactly the trailing empty lines
disappear. -/
theorem rstripNl_joinNl (cur : Str) (ch : List Str) (_hcur : cur ≠ []) (hcnl : '\n' ∉ cur)
    (hch : ∀ l ∈ ch, '\n' ∉ l) :
    rstripNl (joinNl (cur :: ch)) =
      joinNl (cur :: List.rdropWhile (fun l => l.isEmpty) ch) := by
  induction ch using List.reverseRecOn with
  | nil =>
    rw [rstripNl_eq_rdropWhile]
    refine List.rdropWhile_eq_self_iff.mpr ?_
    intro hl hp
    have hmem : (joinNl [cur]).getLast hl ∈ joinNl [cur] := List.getLast_mem hl
    have heq : ((joinNl [cur]).getLast hl) = '\n' := by simpa using hp
    exact hcnl (heq ▸ hmem)
  | append_singleton cs c ih =>
    have hcs : ∀ l ∈ cs, '\n' ∉ l := fun l hl => hch l (List.mem_append_left _ hl)
    have hjoin : joinNl (cur :: (cs ++ [c])) = joinNl (cur :: cs) ++ '\n' :: c := by
      rw [show cur :: (cs ++ [c]) = (cur :: cs) ++ [c] from rfl]
      exact joinNl_append_last (cur :: cs) c (by simp)
    by_cases hc : c.isEmpty
    · have hce : c = [] := by simpa [List.isEmpty_iff] using hc
      subst hce
      rw [hjoin, rstripNl_eq_rdropWhile,
        show (joinNl (cur :: cs) ++ '\n' :: ([] : Str)) = joinNl (cur :: cs) ++ ['\n'] from rfl,
        List.rdropWhile_concat_pos _ _ _ (by simp), ← rstripNl_eq_rdropWhile, ih hcs,
        List.rdropWhile_concat_pos _ _ _ (by simp)]
    · have hcne : c ≠ [] := by simpa [List.isEmpty_iff] using hc
      rw [hjoin, rstripNl_eq_rdropWhile]
      rw [List.rdropWhile_eq_self_iff.mpr ?_, List.rdropWhile_concat_neg _ _ _ (by simpa using hc),
        hjoin]
      intro hl hp
      have hlast : (joinNl (cur :: cs) ++ '\n' :: c).getLast? = c.getLast? := by
        rw [List.getLast?_append_of_ne_nil _ (by simp),
          show ('\n' :: c : Str) = ['\n'] ++ c from rfl,
          List.getLast?_append_of_ne_nil _ hcne]
      have hsome : (joinNl (cur :: cs) ++ '\n' :: c).getLast? =
          some ((joinNl (cur :: cs) ++ '\n' :: c).getLast hl) :=
        List.getLast?_eq_getLast _ hl
      have hcl : c.getLast? = some (c.getLast hcne) := List.getLast?_eq_getLast _ hcne
      have heq : (joinNl (cur :: cs) ++ '\n' :: c).getLast hl = c.getLast hcne := by
        have := hsome.symm.trans (hlast.trans hcl)
        exact Option.some.inj this
      have : c.getLast hcne = '\n' := by
        rw [← heq]
        simpa using hp
      exact hch c (List.mem_append_right _ (List.mem_singleton_self c)) (this ▸ List.getLast_mem hcne)

/-- The length of the leading space run is the indent. -/
theorem takeWhile_spaces_length (l : Str) :
    (l.takeWhile (fun c => c == ' ')).length = indentOf l := by
  have h := congrArg List.length (List.takeWhile_append_dropWhile (fun c => c == ' ') l)
  rw [List.length_append] at h
  have h2 : (List.dropWhile (fun c => c == ' ') l).length ≤ l.length := by
    conv_rhs => rw [← List.takeWhile_append_dropWhile (fun c => c == ' ') l]
    rw [List.length_append]
    omega
  rw [indentOf, lstripSpaces]
  omega

theorem drop_spaces_decomp (l : Str) (k : Nat) (hk : k ≤ indentOf l) :
    l.drop k = (l.takeWhile (fun c => c == ' ')).drop k ++ l.dropWhile (fun c => c == ' ') := by
  conv_lhs => rw [← List.takeWhile_append_dropWhile (fun c => c == ' ') l]
  exact List.drop_append_of_le_length (by rw [takeWhile_spaces_length]; exact hk)

theorem indentOf_drop (l : Str) (k : Nat) (hk : k ≤ indentOf l) :
    indentOf (l.drop k) = indentOf l - k := by
  rw [drop_spaces_decomp l k hk]
  have hall : ∀ x ∈ (l.takeWhile (fun c => c == ' ')).drop k, (fun c => c == ' ') x = true := by
    intro x hx
    have hx2 : x ∈ l.takeWhile (fun c => c == ' ') := List.mem_of_mem_drop hx
    exact @List.mem_takeWhile_imp _ (fun c => c == ' ') l x hx2
  have hdw : List.dropWhile (fun c => c == ' ')
      ((l.takeWhile (fun c => c == ' ')).drop k ++ l.dropWhile (fun c => c == ' ')) =
      l.dropWhile (fun c => c == ' ') := by
    have step : ∀ (a : Str), (∀ x ∈ a, (fun c => c == ' ') x = true) →
        List.dropWhile (fun c => c == ' ') (a ++ l.dropWhile (fun c => c == ' ')) =
          List.dropWhile (fun c => c == ' ') (l.dropWhile (fun c => c == ' ')) := by
      intro a ha
      induction a with
      | nil => rfl
      | cons x a' iha =>
        rw [List.cons_append, List.dropWhile_cons,
          if_pos (by simpa using ha x (List.mem_cons_self _ _))]
        exact iha (fun y hy => ha y (List.mem_cons_of_mem _ hy))
    rw [step _ hall, List.dropWhile_idempotent]
  rw [indentOf, lstripSpaces, hdw, List.length_append, List.length_drop,
    takeWhile_spaces_length]
  rw [indentOf, lstripSpaces]
  have h2 : (List.dropWhile (fun c => c == ' ') l).length ≤ l.length := by
    conv_rhs => rw [← List.takeWhile_append_dropWhile (fun c => c == ' ') l]
    rw [List.length_append]
    omega
  have h3 := takeWhile_spaces_length l
  rw [indentOf, lstripSpaces] at h3
  omega

theorem isBlank_drop (l : Str) (k : Nat) (hk : k ≤ indentOf l) (hnb : isBlank l = false) :
    isBlank (l.drop k) = false := by
  rw [isBlank] at hnb ⊢
  rw [Bool.eq_false_iff] at hnb ⊢
  intro hall
  apply hnb
  rw [List.all_eq_true] at hall ⊢
  intro c hc
  rw [← List.takeWhile_append_dropWhile (fun c => c == ' ') l] at hc
  rcases List.mem_append.mp hc with hc | hc
  · have hsp := List.mem_takeWhile_imp hc
    have hce : c = ' ' := by simpa using hsp
    subst hce
    rfl
  · refine hall c ?_
    rw [drop_spaces_decomp l k hk]
    exact List.mem_append_right _ hc

theorem strip_zero (l : Str) : _strip_leading_spaces l 0 = l := by
  rw [_strip_leading_spaces]
  by_cases hb : isBlank l
  · rw [if_pos hb]
  · rw [if_neg hb]
    simp

theorem isBlank_strip (l : Str) (b : Nat) :
    isBlank (_strip_leading_spaces l b) = isBlank l := by
  rw [_strip_leading_spaces]
  by_cases hb : isBlank l
  · rw [if_pos hb]
  · rw [if_neg hb]
    simp only [Bool.not_eq_true] at hb
    rw [hb]
    exact isBlank_drop l _ (Nat.min_le_left _ _) hb

theorem strip_of_nonblank (l : Str) (b : Nat) (hnb : isBlank l = false) :
    _strip_leading_spaces l b = l.drop (min (indentOf l) b) := by
  rw [_strip_leading_spaces, if_neg (by simp [hnb])]

theorem noNl_strip (l : Str) (b : Nat) (h : '\n' ∉ l) :
    '\n' ∉ _strip_leading_spaces l b := by
  rw [_strip_leading_spaces]
  by_cases hb : isBlank l
  · rw [if_pos hb]
    exact h
  · rw [if_neg hb]
    exact fun hm => h (List.mem_of_mem_drop hm)

/-! ### Facts about the rstripped base line (claim C5) -/

theorem mem_pyRstrip {x : Str} {c : Char} (h : c ∈ pyRstrip x) : c ∈ x := by
  rw [pyRstrip_eq_rdropWhile] at h
  exact (List.rdropWhile_prefix pyIsSpace x).subset h

/-- A non-empty rstripped string ends in a non-whitespace character. -/
theorem pyRstrip_getLast?_not_ws (x : Str) (h : pyRstrip x ≠ []) :
    ∃ c, (pyRstrip x).getLast? = some c ∧ pyIsSpace c = false := by
  refine ⟨(pyRstrip x).getLast h, List.getLast?_eq_getLast _ h, ?_⟩
  have h2 := List.rdropWhile_last_not pyIsSpace x (by rwa [pyRstrip_eq_rdropWhile] at h)
  rw [Bool.not_eq_true] at h2
  exact h2

/-- A non-empty rstripped string is not blank. -/
theorem pyRstrip_not_blank (x : Str) (h : pyRstrip x ≠ []) : isBlank (pyRstrip x) = false := by
  obtain ⟨c, hc, hws⟩ := pyRstrip_getLast?_not_ws x h
  rw [isBlank, Bool.eq_false_iff]
  intro hall
  rw [List.all_eq_true] at hall
  have hmem : c ∈ pyRstrip x := by
    have := List.getLast?_eq_getLast _ h
    rw [this] at hc
    cases hc
    exact List.getLast_mem h
  rw [hall c hmem] at hws
  cases hws

/-- The indent of a non-blank string is strictly less than its length. -/
theorem indentOf_lt_length (l : Str) (hnb : isBlank l = false) : indentOf l < l.length := by
  rw [indentOf, lstripSpaces]
  have hne : List.dropWhile (fun c => c == ' ') l ≠ [] := by
    intro h
    rw [List.dropWhile_eq_nil_iff] at h
    rw [isBlank, Bool.eq_false_iff] at hnb
    apply hnb
    rw [List.all_eq_true]
    intro c hc
    have := h c hc
    have hce : c = ' ' := by simpa using this
    subst hce
    rfl
  have hlen : (List.dropWhile (fun c => c == ' ') l).length ≤ l.length := by
    conv_rhs => rw [← List.takeWhile_append_dropWhile (fun c => c == ' ') l]
    rw [List.length_append]
    omega
  have hpos : 0 < (List.dropWhile (fun c => c == ' ') l).length := List.length_pos.mpr hne
  omega

/-- Dropping a prefix of an rstripped string leaves it rstripped. -/
theorem pyRstrip_drop_pyRstrip (x : Str) (k : Nat) :
    pyRstrip ((pyRstrip x).drop k) = (pyRstrip x).drop k := by
  rw [pyRstrip_eq_rdropWhile ((pyRstrip x).drop k)]
  refine List.rdropWhile_eq_self_iff.mpr ?_
  intro hl hp
  have hne : pyRstrip x ≠ [] := by
    intro h
    rw [h] at hl
    simp at hl
  obtain ⟨e, he, hws⟩ := pyRstrip_getLast?_not_ws x hne
  have h1 : ((pyRstrip x).drop k).getLast? = some e := by
    rw [← he]
    conv_rhs => rw [← List.take_append_drop k (pyRstrip x)]
    exact (List.getLast?_append_of_ne_nil _ hl).symm
  have h2 := List.getLast?_eq_getLast _ hl
  rw [h2] at h1
  have h3 := Option.some.inj h1
  rw [h3] at hp
  rw [hws] at hp
  exact Bool.false_ne_true hp

/-! ### Rescanning its own output keeps every line (claim C5) -/

theorem scan_idem_ss (base : Nat) (ls : List Str) (f s : Nat) :
    (scanChildren base (scanChildren base ls (some f) (some s)).1 (some f) (some s)).1 =
      (scanChildren base ls (some f) (some s)).1 := by
  induction ls with
  | nil => simp [scanChildren_nil]
  | cons line rest ih =>
    by_cases hb : isBlank line = true
    · rw [scanChildren_blank _ _ _ _ _ hb, scanChildren_blank _ _ _ _ _ hb, ih]
    · simp only [Bool.not_eq_true] at hb
      by_cases h1 : indentOf line ≤ base
      · rw [scanChildren_break_base _ _ _ _ _ hb h1, scanChildren_nil]
      · by_cases h2 : indentOf line < f
        · rw [scanChildren_break_fci _ _ _ _ _ hb h1 h2, scanChildren_nil]
        · by_cases h3 : s < indentOf line
          · rw [scanChildren_break_sci _ _ _ _ _ hb h1 h2 h3, scanChildren_nil]
          · rw [scanChildren_keep_full _ _ _ _ _ hb h1 h2 h3,
              scanChildren_keep_full _ _ _ _ _ hb h1 h2 h3, ih]

theorem scan_idem_fn (base : Nat) (ls : List Str) (f : Nat) :
    (scanChildren base (scanChildren base ls (some f) none).1 (some f) none).1 =
      (scanChildren base ls (some f) none).1 := by
  induction ls with
  | nil => simp [scanChildren_nil]
  | cons line rest ih =>
    by_cases hb : isBlank line = true
    · rw [scanChildren_blank _ _ _ _ _ hb, scanChildren_blank _ _ _ _ _ hb, ih]
    · simp only [Bool.not_eq_true] at hb
      by_cases h1 : indentOf line ≤ base
      · rw [scanChildren_break_base _ _ _ _ _ hb h1, scanChildren_nil]
      · by_cases h2 : indentOf line < f
        · rw [scanChildren_break_fci _ _ _ _ _ hb h1 h2, scanChildren_nil]
        · by_cases h3 : f < indentOf line
          · rw [scanChildren_keep_set_sci _ _ _ _ hb h1 h3,
              scanChildren_keep_set_sci _ _ _ _ hb h1 h3, scan_idem_ss]
          · rw [scanChildren_keep_eq_fci _ _ _ _ hb h1 h2 h3,
              scanChildren_keep_eq_fci _ _ _ _ hb h1 h2 h3, ih]

theorem scan_idem_nn (base : Nat) (ls : List Str) :
    (scanChildren base (scanChildren base ls none none).1 none none).1 =
      (scanChildren base ls none none).1 := by
  induction ls with
  | nil => simp [scanChildren_nil]
  | cons line rest ih =>
    by_cases hb : isBlank line = true
    · rw [scanChildren_blank _ _ _ _ _ hb, scanChildren_blank _ _ _ _ _ hb, ih]
    · simp only [Bool.not_eq_true] at hb
      by_cases h1 : indentOf line ≤ base
      · rw [scanChildren_break_base _ _ _ _ _ hb h1, scanChildren_nil]
      · rw [scanChildren_keep_first _ _ _ hb h1, scanChildren_keep_first _ _ _ hb h1,
          scan_idem_fn]

/-- Scanning a prefix of an all-kept line list keeps the whole prefix. -/
theorem scan_prefix (base : Nat) (p : List Str) (ls : List Str) (fci sci : Option Nat)
    (hall : (scanChildren base ls fci sci).1 = ls) (hp : p <+: ls) :
    (scanChildren base p fci sci).1 = p := by
  induction p generalizing ls fci sci with
  | nil => simp [scanChildren_nil]
  | cons x p' ih =>
    obtain ⟨t, ht⟩ := hp
    subst ht
    rw [List.cons_append] at hall
    by_cases hb : isBlank x = true
    · rw [scanChildren_blank _ _ _ _ _ hb] at hall
      simp only [List.cons.injEq, true_and] at hall
      rw [scanChildren_blank _ _ _ _ _ hb, ih (p' ++ t) fci sci hall ⟨t, rfl⟩]
    · simp only [Bool.not_eq_true] at hb
      by_cases h1 : indentOf x ≤ base
      · rw [scanChildren_break_base _ _ _ _ _ hb h1] at hall
        simp at hall
      · rcases fci with _ | f
        · rcases sci with _ | s
          · rw [scanChildren_keep_first _ _ _ hb h1] at hall
            simp only [List.cons.injEq, true_and] at hall
            rw [scanChildren_keep_first _ _ _ hb h1,
              ih (p' ++ t) (some (indentOf x)) none hall ⟨t, rfl⟩]
          · by_cases h3 : s < indentOf x
            · rw [scanChildren_break_first_sci _ _ _ _ hb h1 h3] at hall
              simp at hall
            · rw [scanChildren_keep_first_sci _ _ _ _ hb h1 h3] at hall
              simp only [List.cons.injEq, true_and] at hall
              rw [scanChildren_keep_first_sci _ _ _ _ hb h1 h3,
                ih (p' ++ t) (some (indentOf x)) (some s) hall ⟨t, rfl⟩]
        · rcases sci with _ | s
          · by_cases h2 : indentOf x < f
            · rw [scanChildren_break_fci _ _ _ _ _ hb h1 h2] at hall
              simp at hall
            · by_cases h3 : f < indentOf x
              · rw [scanChildren_keep_set_sci _ _ _ _ hb h1 h3] at hall
                simp only [List.cons.injEq, true_and] at hall
                rw [scanChildren_keep_set_sci _ _ _ _ hb h1 h3,
                  ih (p' ++ t) (some f) (some (indentOf x)) hall ⟨t, rfl⟩]
              · rw [scanChildren_keep_eq_fci _ _ _ _ hb h1 h2 h3] at hall
                simp only [List.cons.injEq, true_and] at hall
                rw [scanChildren_keep_eq_fci _ _ _ _ hb h1 h2 h3,
                  ih (p' ++ t) (some f) none hall ⟨t, rfl⟩]
          · by_cases h2 : indentOf x < f
            · rw [scanChildren_break_fci _ _ _ _ _ hb h1 h2] at hall
              simp at hall
            · by_cases h3 : s < indentOf x
              · rw [scanChildren_break_sci _ _ _ _ _ hb h1 h2 h3] at hall
                simp at hall
              · rw [scanChildren_keep_full _ _ _ _ _ hb h1 h2 h3] at hall
                simp only [List.cons.injEq, true_and] at hall
                rw [scanChildren_keep_full _ _ _ _ _ hb h1 h2 h3,
                  ih (p' ++ t) (some f) (some s) hall ⟨t, rfl⟩]

/-! ### Dedenting by the base indent commutes with the scan (claim C5) -/

theorem indentOf_strip (l : Str) (b : Nat) (hnb : isBlank l = false) :
    indentOf (_strip_leading_spaces l b) = indentOf l - min (indentOf l) b := by
  rw [strip_of_nonblank l b hnb, indentOf_drop l _ (Nat.min_le_left _ _)]

theorem scan_shift_ss (base : Nat) (ls : List Str) (f s : Nat) (hf : base < f) (hs : base < s) :
    (scanChildren 0 (ls.map (fun l => _strip_leading_spaces l base))
      (some (f - base)) (some (s - base))).1 =
      (scanChildren base ls (some f) (some s)).1.map
        (fun l => _strip_leading_spaces l base) := by
  induction ls with
  | nil => simp [scanChildren_nil]
  | cons line rest ih =>
    rw [List.map_cons]
    by_cases hb : isBlank line = true
    · have hb' : isBlank (_strip_leading_spaces line base) = true := by
        rw [isBlank_strip]
        exact hb
      rw [scanChildren_blank _ _ _ _ _ hb', scanChildren_blank _ _ _ _ _ hb, ih, List.map_cons]
    · simp only [Bool.not_eq_true] at hb
      have hb' : isBlank (_strip_leading_spaces line base) = false := by
        rw [isBlank_strip]
        exact hb
      have hind := indentOf_strip line base hb
      by_cases h1 : indentOf line ≤ base
      · rw [scanChildren_break_base _ _ _ _ _ hb'
          (by rw [hind]; omega : indentOf (_strip_leading_spaces line base) ≤ 0),
          scanChildren_break_base _ _ _ _ _ hb h1]
        simp
      · have hmin : min (indentOf line) base = base := by omega
        rw [hmin] at hind
        by_cases h2 : indentOf line < f
        · rw [scanChildren_break_fci _ _ _ _ _ hb' (by omega) (by rw [hind]; omega),
            scanChildren_break_fci _ _ _ _ _ hb h1 h2]
          simp
        · by_cases h3 : s < indentOf line
          · rw [scanChildren_break_sci _ _ _ _ _ hb' (by omega) (by rw [hind]; omega)
              (by rw [hind]; omega),
              scanChildren_break_sci _ _ _ _ _ hb h1 h2 h3]
            simp
          · rw [scanChildren_keep_full _ _ _ _ _ hb' (by omega) (by rw [hind]; omega)
              (by rw [hind]; omega),
              scanChildren_keep_full _ _ _ _ _ hb h1 h2 h3, ih, List.map_cons]

theorem scan_shift_fn (base : Nat) (ls : List Str) (f : Nat) (hf : base < f) :
    (scanChildren 0 (ls.map (fun l => _strip_leading_spaces l base)) (some (f - base)) none).1 =
      (scanChildren base ls (some f) none).1.map (fun l => _strip_leading_spaces l base) := by
  induction ls with
  | nil => simp [scanChildren_nil]
  | cons line rest ih =>
    rw [List.map_cons]
    by_cases hb : isBlank line = true
    · have hb' : isBlank (_strip_leading_spaces line base) = true := by
        rw [isBlank_strip]
        exact hb
      rw [scanChildren_blank _ _ _ _ _ hb', scanChildren_blank _ _ _ _ _ hb, ih, List.map_cons]
    · simp only [Bool.not_eq_true] at hb
      have hb' : isBlank (_strip_leading_spaces line base) = false := by
        rw [isBlank_strip]
        exact hb
      have hind := indentOf_strip line base hb
      by_cases h1 : indentOf line ≤ base
      · rw [scanChildren_break_base _ _ _ _ _ hb'
          (by rw [hind]; omega : indentOf (_strip_leading_spaces line base) ≤ 0),
          scanChildren_break_base _ _ _ _ _ hb h1]
        simp
      · have hmin : min (indentOf line) base = base := by omega
        rw [hmin] at hind
        by_cases h2 : indentOf line < f
        · rw [scanChildren_break_fci _ _ _ _ _ hb' (by omega) (by rw [hind]; omega),
            scanChildren_break_fci _ _ _ _ _ hb h1 h2]
          simp
        · by_cases h3 : f < indentOf line
          · rw [scanChildren_keep_set_sci _ _ _ _ hb' (by omega) (by rw [hind]; omega),
              scanChildren_keep_set_sci _ _ _ _ hb h1 h3, hind,
              scan_shift_ss base rest f (indentOf line) hf (by omega), List.map_cons]
          · rw [scanChildren_keep_eq_fci _ _ _ _ hb' (by omega) (by rw [hind]; omega)
              (by rw [hind]; omega),
              scanChildren_keep_eq_fci _ _ _ _ hb h1 h2 h3, ih, List.map_cons]

theorem scan_shift_nn (base : Nat) (ls : List Str) :
    (scanChildren 0 (ls.map (fun l => _strip_leading_spaces l base)) none none).1 =
      (scanChildren base ls none none).1.map (fun l => _strip_leading_spaces l base) := by
  induction ls with
  | nil => simp [scanChildren_nil]
  | cons line rest ih =>
    rw [List.map_cons]
    by_cases hb : isBlank line = true
    · have hb' : isBlank (_strip_leading_spaces line base) = true := by
        rw [isBlank_strip]
        exact hb
      rw [scanChildren_blank _ _ _ _ _ hb', scanChildren_blank _ _ _ _ _ hb, ih, List.map_cons]
    · simp only [Bool.not_eq_true] at hb
      have hb' : isBlank (_strip_leading_spaces line base) = false := by
        rw [isBlank_strip]
        exact hb
      have hind := indentOf_strip line base hb
      by_cases h1 : indentOf line ≤ base
      · rw [scanChildren_break_base _ _ _ _ _ hb'
          (by rw [hind]; omega : indentOf (_strip_leading_spaces line base) ≤ 0),
          scanChildren_break_base _ _ _ _ _ hb h1]
        simp
      · have hmin : min (indentOf line) base = base := by omega
        rw [hmin] at hind
        rw [scanChildren_keep_first _ _ _ hb' (by omega), scanChildren_keep_first _ _ _ hb h1,
          hind, scan_shift_fn base rest (indentOf line) (by omega), List.map_cons]

/-! ### Locating newlines (claim C5) -/

theorem rlastNl_eq_none (u : Str) : rlastNl u = none ↔ '\n' ∉ u := by
  induction u with
  | nil => simp [rlastNl]
  | cons c rest ih =>
    rw [rlastNl]
    cases h : rlastNl rest with
    | some j =>
      simp only [List.mem_cons, not_or]
      constructor
      · intro hc
        cases hc
      · rintro ⟨_, hrest⟩
        rw [← ih] at hrest
        rw [h] at hrest
        cases hrest
    | none =>
      by_cases hc : c = '\n'
      · subst hc
        simp
      · rw [if_neg hc]
        constructor
        · intro _
          simp only [List.mem_cons, not_or]
          exact ⟨fun he => hc he.symm, ih.mp h⟩
        · intro _
          rfl

theorem rlastNl_lt_length (u : Str) (j : Nat) (h : rlastNl u = some j) : j < u.length := by
  induction u generalizing j with
  | nil => cases h
  | cons c rest ih =>
    rw [rlastNl] at h
    cases hr : rlastNl rest with
    | some j0 =>
      rw [hr] at h
      cases h
      have := ih j0 hr
      simp only [List.length_cons]
      omega
    | none =>
      rw [hr] at h
      by_cases hc : c = '\n'
      · rw [if_pos hc] at h
        cases h
        simp
      · rw [if_neg hc] at h
        cases h

theorem rlastNl_drop (u : Str) (j : Nat) (h : rlastNl u = some j) : '\n' ∉ u.drop (j + 1) := by
  induction u generalizing j with
  | nil => cases h
  | cons c rest ih =>
    rw [rlastNl] at h
    cases hr : rlastNl rest with
    | some j0 =>
      rw [hr] at h
      cases h
      exact ih j0 hr
    | none =>
      rw [hr] at h
      by_cases hc : c = '\n'
      · rw [if_pos hc] at h
        cases h
        exact (rlastNl_eq_none rest).mp hr
      · rw [if_neg hc] at h
        cases h

theorem findNlAux_eq_none (u : Str) (i : Nat) : findNlAux u i = none ↔ '\n' ∉ u := by
  induction u generalizing i with
  | nil => simp [findNlAux]
  | cons c rest ih =>
    rw [findNlAux]
    by_cases hc : c = '\n'
    · subst hc
      simp
    · rw [if_neg hc]
      simp only [List.mem_cons, not_or]
      rw [ih (i + 1)]
      constructor
      · intro hr
        exact ⟨fun he => hc he.symm, hr⟩
      · intro hr
        exact hr.2

theorem findNlAux_append (a w : Str) (i : Nat) (ha : '\n' ∉ a) :
    findNlAux (a ++ '\n' :: w) i = some (i + a.length) := by
  induction a generalizing i with
  | nil => simp [findNlAux]
  | cons c rest ih =>
    have hc : c ≠ '\n' := fun h => ha (by rw [h]; exact List.mem_cons_self _ _)
    rw [List.cons_append, findNlAux, if_neg hc,
      ih (i + 1) (fun hm => ha (List.mem_cons_of_mem _ hm))]
    simp only [List.length_cons]
    congr 1
    omega

theorem findNlAux_spec (u : Str) (i j : Nat) (h : findNlAux u i = some j) :
    i ≤ j ∧ j - i < u.length ∧ '\n' ∉ u.take (j - i) := by
  induction u generalizing i j with
  | nil => cases h
  | cons c rest ih =>
    rw [findNlAux] at h
    by_cases hc : c = '\n'
    · rw [if_pos hc] at h
      cases h
      simp
    · rw [if_neg hc] at h
      obtain ⟨h1, h2, h3⟩ := ih (i + 1) j h
      refine ⟨by omega, by simp only [List.length_cons]; omega, ?_⟩
      have hji : j - i = (j - (i + 1)) + 1 := by omega
      rw [hji, List.take_succ_cons]
      simp only [List.mem_cons, not_or]
      exact ⟨fun he => hc he.symm, h3⟩

/-! ### First-run facts for claim C5 -/

/-- Every line the child scan keeps comes from its input list. -/
theorem mem_scanChildren (base : Nat) (ls : List Str) (fci sci : Option Nat) :
    ∀ l ∈ (scanChildren base ls fci sci).1, l ∈ ls := by
  induction ls generalizing fci sci with
  | nil =>
    intro l hl
    rw [scanChildren_nil] at hl
    cases hl
  | cons line rest ih =>
    intro l hl
    by_cases hb : isBlank line = true
    · rw [scanChildren_blank _ _ _ _ _ hb] at hl
      rcases List.mem_cons.mp hl with rfl | hl
      · exact List.mem_cons_self _ _
      · exact List.mem_cons_of_mem _ (ih _ _ l hl)
    · simp only [Bool.not_eq_true] at hb
      by_cases h1 : indentOf line ≤ base
      · rw [scanChildren_break_base _ _ _ _ _ hb h1] at hl
        cases hl
      · cases fci with
        | none =>
          cases sci with
          | none =>
            rw [scanChildren_keep_first _ _ _ hb h1] at hl
            rcases List.mem_cons.mp hl with rfl | hl
            · exact List.mem_cons_self _ _
            · exact List.mem_cons_of_mem _ (ih _ _ l hl)
          | some s =>
            by_cases h2 : s < indentOf line
            · rw [scanChildren_break_first_sci _ _ _ _ hb h1 h2] at hl
              cases hl
            · rw [scanChildren_keep_first_sci _ _ _ _ hb h1 h2] at hl
              rcases List.mem_cons.mp hl with rfl | hl
              · exact List.mem_cons_self _ _
              · exact List.mem_cons_of_mem _ (ih _ _ l hl)
        | some f =>
          by_cases h2 : indentOf line < f
          · rw [scanChildren_break_fci _ _ _ _ _ hb h1 h2] at hl
            cases hl
          · cases sci with
            | some s =>
              by_cases h3 : s < indentOf line
              · rw [scanChildren_break_sci _ _ _ _ _ hb h1 h2 h3] at hl
                cases hl
              · rw [scanChildren_keep_full _ _ _ _ _ hb h1 h2 h3] at hl
                rcases List.mem_cons.mp hl with rfl | hl
                · exact List.mem_cons_self _ _
                · exact List.mem_cons_of_mem _ (ih _ _ l hl)
            | none =>
              by_cases h3 : f < indentOf line
              · rw [scanChildren_keep_set_sci _ _ _ _ hb h1 h3] at hl
                rcases List.mem_cons.mp hl with rfl | hl
                · exact List.mem_cons_self _ _
                · exact List.mem_cons_of_mem _ (ih _ _ l hl)
              · rw [scanChildren_keep_eq_fci _ _ _ _ hb h1 h2 h3] at hl
                rcases List.mem_cons.mp hl with rfl | hl
                · exact List.mem_cons_self _ _
                · exact List.mem_cons_of_mem _ (ih _ _ l hl)

/-- Every line produced by splitting the text after the base line is
newline-free. -/
theorem noNl_linesAfter (text : Str) (le : Nat) :
    ∀ l ∈ linesAfter text le, '\n' ∉ l := by
  intro l hl
  rw [linesAfter] at hl
  by_cases h : text.length ≤ le + 1
  · rw [if_pos h] at hl
    cases hl
  · rw [if_neg h] at hl
    by_cases h2 : text.getLast? = some '\n'
    · rw [if_pos h2] at hl
      exact sep_not_mem_splitSep '\n' _ l (List.mem_of_mem_dropLast hl)
    · rw [if_neg h2] at hl
      exact sep_not_mem_splitSep '\n' _ l hl

/-- `slice` splits at an interior point. -/
theorem slice_append (t : Str) (a b c : Nat) (hab : a ≤ b) (hbc : b ≤ c)
    (hb : b ≤ t.length) : slice t a c = slice t a b ++ slice t b c := by
  rw [slice, slice, slice]
  have h1 : t.take c = t.take b ++ (t.take c).drop b := by
    conv_lhs => rw [← List.take_append_drop b (t.take c)]
    congr 1
    rw [List.take_take]
    congr 1
    omega
  have hlen : a ≤ (t.take b).length := by
    rw [List.length_take]
    omega
  conv_lhs => rw [h1]
  rw [List.drop_append_of_le_length hlen]

/-- The computed line start never exceeds the span start. -/
theorem lineStartOf_le (text : Str) (start : Nat) : lineStartOf text start ≤ start := by
  rw [lineStartOf]
  cases h : rfindNl text start with
  | none => exact Nat.zero_le _
  | some j =>
    have hlt := rlastNl_lt_length (text.take start) j h
    rw [List.length_take] at hlt
    show j + 1 ≤ start
    omega

/-- The text between the computed line start and the span start holds no
newline. -/
theorem noNl_slice_lineStart (text : Str) (start : Nat) :
    '\n' ∉ slice text (lineStartOf text start) start := by
  rw [lineStartOf]
  cases h : rfindNl text start with
  | none =>
    intro hm
    have hm2 : '\n' ∈ text.take start :=
      List.mem_of_mem_drop (show '\n' ∈ (text.take start).drop 0 from hm)
    exact (rlastNl_eq_none (text.take start)).mp h hm2
  | some j =>
    exact rlastNl_drop (text.take start) j h

/-- The computed line end bounds the span stop, stays inside the text, and
the text between them holds no newline. -/
theorem lineEndOf_facts (text : Str) (stop : Nat) (h3 : stop ≤ text.length) :
    stop ≤ lineEndOf text stop ∧ lineEndOf text stop ≤ text.length ∧
      '\n' ∉ slice text stop (lineEndOf text stop) := by
  cases h : findNl text stop with
  | none =>
    rw [lineEndOf, h, Option.getD_none]
    refine ⟨h3, le_rfl, ?_⟩
    have hnone : '\n' ∉ text.drop stop := (findNlAux_eq_none _ _).mp h
    intro hm
    apply hnone
    rw [slice, List.take_length] at hm
    exact hm
  | some j =>
    rw [lineEndOf, h, Option.getD_some]
    obtain ⟨h1, h2, hnl⟩ := findNlAux_spec (text.drop stop) stop j h
    rw [List.length_drop] at h2
    refine ⟨h1, by omega, ?_⟩
    rw [slice, List.drop_take]
    exact hnl

/-- When the extraction span holds no newline, neither does the base line
around it. -/
theorem noNl_currentLine (text : Str) (start stop : Nat)
    (hspan : '\n' ∉ slice text start stop) (hss : start ≤ stop)
    (h3 : stop ≤ text.length) : '\n' ∉ currentLineOf text start stop := by
  rw [currentLineOf]
  intro hm
  have hm2 := mem_pyRstrip hm
  obtain ⟨hle1, _, hnl3⟩ := lineEndOf_facts text stop h3
  have hls := lineStartOf_le text start
  have hsplit1 : slice text (lineStartOf text start) (lineEndOf text stop) =
      slice text (lineStartOf text start) start ++ slice text start (lineEndOf text stop) :=
    slice_append text _ start _ hls (by omega) (by omega)
  have hsplit2 : slice text start (lineEndOf text stop) =
      slice text start stop ++ slice text stop (lineEndOf text stop) :=
    slice_append text start stop _ hss hle1 h3
  rw [hsplit1, hsplit2] at hm2
  rcases List.mem_append.mp hm2 with hm3 | hm3
  · exact noNl_slice_lineStart text start hm3
  rcases List.mem_append.mp hm3 with hm4 | hm4
  · exact hspan hm4
  · exact hnl3 hm4

/-! ### Extraction from a normalized block is the identity (claim C5) -/

/-- Re-running `_extract_line_with_children` on an assembled block — a
non-empty, rstripped, indent-zero base line followed by child lines that
the scan keeps in full, with no trailing empty line — returns the block
unchanged, for any in-line span. -/
theorem extract_of_block (D : Str) (CH : List Str) (start' stop' : Nat)
    (hDne : D ≠ []) (hDnl : '\n' ∉ D) (hDr : pyRstrip D = D) (hDind : indentOf D = 0)
    (hCHnl : ∀ l ∈ CH, '\n' ∉ l)
    (hkeep : (scanChildren 0 CH none none).1 = CH)
    (htrail : List.rdropWhile (fun l => l.isEmpty) CH = CH)
    (hss : start' ≤ stop') (hstop : stop' ≤ D.length) :
    _extract_line_with_children (joinNl (D :: CH)) start' stop' = joinNl (D :: CH) := by
  have hlast? : ∀ c : Str, CH.getLast? = some c → c ≠ [] := by
    intro c hc hce
    subst hce
    have hCHne : CH ≠ [] := by
      intro h
      rw [h] at hc
      cases hc
    have hgl : CH.getLast hCHne = [] := by
      have h0 := List.getLast?_eq_getLast CH hCHne
      rw [h0] at hc
      exact Option.some.inj hc
    have hsplit : CH = CH.dropLast ++ [CH.getLast hCHne] :=
      (List.dropLast_append_getLast hCHne).symm
    have hstep : List.rdropWhile (fun l => (l : Str).isEmpty) CH =
        List.rdropWhile (fun l => (l : Str).isEmpty) CH.dropLast := by
      conv_lhs => rw [hsplit, hgl]
      exact List.rdropWhile_concat_pos _ _ _ (by simp)
    rw [htrail] at hstep
    have hlen1 : (List.rdropWhile (fun l => (l : Str).isEmpty) CH.dropLast).length ≤
        CH.dropLast.length := (List.rdropWhile_prefix _ _).length_le
    have hlen2 : CH.dropLast.length < CH.length := by
      rw [List.length_dropLast]
      have := List.length_pos.mpr hCHne
      omega
    rw [← hstep] at hlen1
    omega
  have htake : (joinNl (D :: CH)).take start' = D.take start' := by
    cases CH with
    | nil => rfl
    | cons m M =>
      rw [show joinNl (D :: m :: M) = D ++ '\n' :: joinNl (m :: M) from rfl]
      exact List.take_append_of_le_length (by omega)
  have hls : lineStartOf (joinNl (D :: CH)) start' = 0 := by
    have hnone : rfindNl (joinNl (D :: CH)) start' = none := by
      rw [rfindNl, htake, rlastNl_eq_none]
      intro hm
      exact hDnl (List.mem_of_mem_take hm)
    rw [lineStartOf, hnone]
  have hle : lineEndOf (joinNl (D :: CH)) stop' = D.length := by
    cases CH with
    | nil =>
      have hnone : findNl (joinNl [D]) stop' = none := by
        rw [findNl, findNlAux_eq_none]
        intro hm
        exact hDnl (List.mem_of_mem_drop hm)
      rw [lineEndOf, hnone]
      rfl
    | cons m M =>
      have hsome : findNl (joinNl (D :: m :: M)) stop' = some D.length := by
        rw [show joinNl (D :: m :: M) = D ++ '\n' :: joinNl (m :: M) from rfl, findNl,
          List.drop_append_of_le_length hstop,
          findNlAux_append _ _ _ (fun hm => hDnl (List.mem_of_mem_drop hm))]
        congr 1
        rw [List.length_drop]
        omega
      rw [lineEndOf, hsome]
      rfl
  have hcur : currentLineOf (joinNl (D :: CH)) start' stop' = D := by
    rw [currentLineOf, hls, hle]
    have hslice : slice (joinNl (D :: CH)) 0 D.length = D := by
      rw [slice, List.drop_zero]
      cases CH with
      | nil => exact (show List.take D.length D = D from List.take_length D)
      | cons m M =>
        rw [show joinNl (D :: m :: M) = D ++ '\n' :: joinNl (m :: M) from rfl,
          List.take_append_of_le_length le_rfl, List.take_length]
    rw [hslice, hDr]
  have hbase : baseIndentOf (joinNl (D :: CH)) start' stop' = 0 := by
    rw [baseIndentOf, hcur, hDind]
  have hlinesAfter : linesAfter (joinNl (D :: CH)) D.length = CH := by
    cases CH with
    | nil =>
      rw [linesAfter, if_pos ?_]
      show (D.length : Nat) ≤ D.length + 1
      omega
    | cons m M =>
      have hglne : (m :: M).getLast (by simp) ≠ [] :=
        hlast? _ (List.getLast?_eq_getLast _ (by simp))
      have hW : joinNl (m :: M) ≠ [] := joinNl_ne_nil_of_last (m :: M) (by simp) hglne
      rw [linesAfter, if_neg ?_]
      · have hdrop : (joinNl (D :: m :: M)).drop (D.length + 1) = joinNl (m :: M) := by
          rw [show joinNl (D :: m :: M) = D ++ '\n' :: joinNl (m :: M) from rfl,
            show (D ++ '\n' :: joinNl (m :: M) : Str) = (D ++ ['\n']) ++ joinNl (m :: M) by simp,
            show D.length + 1 = (D ++ ['\n']).length by simp]
          exact List.drop_left _ _
        rw [hdrop]
        have hgl : (joinNl (D :: m :: M)).getLast? = ((m :: M).getLast (by simp)).getLast? := by
          refine (getLast?_joinNl (D :: m :: M) (by simp) ?_).trans ?_
          · rw [List.getLast_cons (by simp : (m :: M) ≠ [])]
            exact hglne
          · rw [List.getLast_cons (by simp : (m :: M) ≠ [])]
        rw [if_neg ?_]
        · exact splitNl_joinNl (m :: M) (by simp) hCHnl
        · rw [hgl]
          intro hsome
          have h0 := List.getLast?_eq_getLast ((m :: M).getLast (by simp)) hglne
          rw [h0] at hsome
          have h1 := Option.some.inj hsome
          exact hCHnl _ (List.getLast_mem (by simp)) (h1 ▸ List.getLast_mem hglne)
      · rw [show joinNl (D :: m :: M) = D ++ '\n' :: joinNl (m :: M) from rfl]
        simp only [List.length_append, List.length_cons, not_le]
        have := List.length_pos.mpr hW
        omega
  have hchildren : childLinesOf (joinNl (D :: CH)) start' stop' = CH := by
    rw [childLinesOf, hbase, hle, hlinesAfter, hkeep]
  rw [_extract_line_with_children, hbase, if_neg (by omega), hcur, hchildren,
    rstripNl_joinNl D CH hDne hDnl hCHnl, htrail]

/-- C5: context extraction is idempotent on indentation normalization.
For any span of a document that lies on a single line (no newline inside
the matched span, the span contained in the rstripped base line),
re-running `_extract_line_with_children` on its own output block —
treated as a fresh document, with the matched span relocated to base
indent zero (shifted left by the line start and the base indent) —
returns the block unchanged. -/
theorem C5_extract_idempotent (text : Str) (start stop : Nat)
    (hspan : '\n' ∉ slice text start stop) (h2 : start < stop) (h3 : stop ≤ text.length)
    (h4 : lineStartOf text start + baseIndentOf text start stop ≤ start)
    (h5 : stop ≤ lineStartOf text start + (currentLineOf text start stop).length) :
    _extract_line_with_children (_extract_line_with_children text start stop)
        (start - lineStartOf text start - baseIndentOf text start stop)
        (stop - lineStartOf text start - baseIndentOf text start stop) =
      _extract_line_with_children text start stop := by
  have hss : start ≤ stop := le_of_lt h2
  have f1 : '\n' ∉ currentLineOf text start stop :=
    noNl_currentLine text start stop hspan hss h3
  have f2 : currentLineOf text start stop ≠ [] := by
    intro h
    rw [h] at h5
    simp only [List.length_nil, Nat.add_zero] at h5
    omega
  have f3 : isBlank (currentLineOf text start stop) = false :=
    pyRstrip_not_blank (slice text (lineStartOf text start) (lineEndOf text stop)) f2
  have f4 : baseIndentOf text start stop < (currentLineOf text start stop).length := by
    rw [baseIndentOf]
    exact indentOf_lt_length _ f3
  have hD_eq : _strip_leading_spaces (currentLineOf text start stop)
      (baseIndentOf text start stop) =
      (currentLineOf text start stop).drop (baseIndentOf text start stop) := by
    rw [strip_of_nonblank _ _ f3]
    congr 1
    rw [baseIndentOf]
    exact Nat.min_self _
  have hDne : (currentLineOf text start stop).drop (baseIndentOf text start stop) ≠ [] := by
    intro h
    have := congrArg List.length h
    rw [List.length_drop, List.length_nil] at this
    omega
  have hDnl : '\n' ∉ (currentLineOf text start stop).drop (baseIndentOf text start stop) :=
    fun hm => f1 (List.mem_of_mem_drop hm)
  have hDr : pyRstrip ((currentLineOf text start stop).drop (baseIndentOf text start stop)) =
      (currentLineOf text start stop).drop (baseIndentOf text start stop) :=
    pyRstrip_drop_pyRstrip (slice text (lineStartOf text start) (lineEndOf text stop)) _
  have hDind : indentOf ((currentLineOf text start stop).drop
      (baseIndentOf text start stop)) = 0 := by
    rw [indentOf_drop _ _ (le_of_eq (by rw [baseIndentOf])), baseIndentOf]
    omega
  have f5 : ∀ l ∈ childLinesOf text start stop, '\n' ∉ l := by
    intro l hl
    rw [childLinesOf] at hl
    exact noNl_linesAfter text _ l (mem_scanChildren _ _ _ _ l hl)
  have f6 : (scanChildren (baseIndentOf text start stop) (childLinesOf text start stop)
      none none).1 = childLinesOf text start stop := by
    rw [childLinesOf]
    exact scan_idem_nn _ _
  have hCH'nl : ∀ l ∈ (childLinesOf text start stop).map
      (fun l => _strip_leading_spaces l (baseIndentOf text start stop)), '\n' ∉ l := by
    intro l hl
    obtain ⟨x, hx, rfl⟩ := List.mem_map.mp hl
    exact noNl_strip x _ (f5 x hx)
  have hCH'keep : (scanChildren 0 ((childLinesOf text start stop).map
      (fun l => _strip_leading_spaces l (baseIndentOf text start stop))) none none).1 =
      (childLinesOf text start stop).map
        (fun l => _strip_leading_spaces l (baseIndentOf text start stop)) := by
    rw [scan_shift_nn, f6]
  have hCH''pre : List.rdropWhile (fun l => l.isEmpty)
      ((childLinesOf text start stop).map
        (fun l => _strip_leading_spaces l (baseIndentOf text start stop))) <+:
      (childLinesOf text start stop).map
        (fun l => _strip_leading_spaces l (baseIndentOf text start stop)) :=
    List.rdropWhile_prefix _ _
  have hCH''nl : ∀ l ∈ List.rdropWhile (fun l => l.isEmpty)
      ((childLinesOf text start stop).map
        (fun l => _strip_leading_spaces l (baseIndentOf text start stop))), '\n' ∉ l :=
    fun l hl => hCH'nl l (hCH''pre.subset hl)
  have hCH''keep : (scanChildren 0 (List.rdropWhile (fun l => l.isEmpty)
      ((childLinesOf text start stop).map
        (fun l => _strip_leading_spaces l (baseIndentOf text start stop)))) none none).1 =
      List.rdropWhile (fun l => l.isEmpty)
        ((childLinesOf text start stop).map
          (fun l => _strip_leading_spaces l (baseIndentOf text start stop))) :=
    scan_prefix 0 _ _ none none hCH'keep hCH''pre
  have htrail : List.rdropWhile (fun l => l.isEmpty) (List.rdropWhile (fun l => l.isEmpty)
      ((childLinesOf text start stop).map
        (fun l => _strip_leading_spaces l (baseIndentOf text start stop)))) =
      List.rdropWhile (fun l => l.isEmpty)
        ((childLinesOf text start stop).map
          (fun l => _strip_leading_spaces l (baseIndentOf text start stop))) :=
    List.rdropWhile_idempotent _ _
  have hblock : _extract_line_with_children text start stop =
      joinNl ((currentLineOf text start stop).drop (baseIndentOf text start stop) ::
        List.rdropWhile (fun l => l.isEmpty)
          ((childLinesOf text start stop).map
            (fun l => _strip_leading_spaces l (baseIndentOf text start stop)))) := by
    rw [_extract_line_with_children]
    have hIf : (if 0 < baseIndentOf text start stop then
        (currentLineOf text start stop :: childLinesOf text start stop).map
          (fun l => _strip_leading_spaces l (baseIndentOf text start stop))
      else currentLineOf text start stop :: childLinesOf text start stop) =
        _strip_leading_spaces (currentLineOf text start stop)
            (baseIndentOf text start stop) ::
          (childLinesOf text start stop).map
            (fun l => _strip_leading_spaces l (baseIndentOf text start stop)) := by
      by_cases hB : 0 < baseIndentOf text start stop
      · rw [if_pos hB, List.map_cons]
      · rw [if_neg hB]
        have hB0 : baseIndentOf text start stop = 0 := by omega
        rw [hB0, strip_zero]
        congr 1
        have hmap : (childLinesOf text start stop).map
            (fun l => _strip_leading_spaces l 0) =
            (childLinesOf text start stop).map id :=
          List.map_congr_left (fun l _ => strip_zero l)
        rw [hmap, List.map_id]
    rw [hIf, hD_eq, rstripNl_joinNl _ _ hDne hDnl hCH'nl]
  have hstop' : stop - lineStartOf text start - baseIndentOf text start stop ≤
      ((currentLineOf text start stop).drop (baseIndentOf text start stop)).length := by
    rw [List.length_drop]
    omega
  rw [hblock]
  exact extract_of_block _ _ _ _ hDne hDnl hDr hDind hCH''nl hCH''keep htrail
    (by omega) hstop'

/-- Witness for C5 on a concrete indented document: the span `[[T]]` of
`"    - Deep [[T]]\n      - C\n"` at (11, 16). -/
theorem C5_extract_idempotent_witness :
    ('\n' ∉ slice (lit "    - Deep [[T]]\n      - C\n") 11 16 ∧
      11 < 16 ∧ 16 ≤ (lit "    - Deep [[T]]\n      - C\n").length ∧
      lineStartOf (lit "    - Deep [[T]]\n      - C\n") 11 +
        baseIndentOf (lit "    - Deep [[T]]\n      - C\n") 11 16 ≤ 11 ∧
      16 ≤ lineStartOf (lit "    - Deep [[T]]\n      - C\n") 11 +
        (currentLineOf (lit "    - Deep [[T]]\n      - C\n") 11 16).length) ∧
    _extract_line_with_children
        (_extract_line_with_children (lit "    - Deep [[T]]\n      - C\n") 11 16)
        (11 - lineStartOf (lit "    - Deep [[T]]\n      - C\n") 11 -
          baseIndentOf (lit "    - Deep [[T]]\n      - C\n") 11 16)
        (16 - lineStartOf (lit "    - Deep [[T]]\n      - C\n") 11 -
          baseIndentOf (lit "    - Deep [[T]]\n      - C\n") 11 16) =
      _extract_line_with_children (lit "    - Deep [[T]]\n      - C\n") 11 16 :=
  ⟨⟨by decide, by decide, by decide, by decide, by decide⟩,
    C5_extract_idempotent (lit "    - Deep [[T]]\n      - C\n") 11 16
      (by decide) (by decide) (by decide) (by decide) (by decide)⟩

end RoamFmt
